import Mathlib

/-!
Verification development for the StepDeepResearch agent-orchestration runtime.

Each Lean definition is a shallow embedding of one Python function or data
structure of the repository (file and symbol named in its doc comment).
Machine-level concerns that Python hides (object aliasing, dict insertion
order, truthiness) are made explicit: lists model Python lists, association
lists model dicts (insertion ordered, unique keys), an explicit heap models
object identity where a claim depends on aliasing, and `Option`/`Except`
model raised exceptions.
-/

set_option autoImplicit false

/-! ## Model adapter retry loop

Embedding of `StepFunModelProvider._call_with_retry`
(`cortex/model/stepfun_provider.py`).  The wrapped network call is modelled
as a function from the (1-based) attempt number to the attempt's outcome;
the embedding records the final result, how many times the wrapped function
ran and the sequence of back-off sleeps.
-/

namespace StepFun

/-- Trace of one run of the retry wrapper: final outcome, number of
invocations of the wrapped function and the back-off sleeps (seconds)
performed between attempts, in order. -/
structure RetryTrace (ε α : Type) where
  result : Except ε α
  calls : Nat
  sleeps : List Nat

/-- `_call_with_retry`, from attempt number `attempt` on: try the call; on
success return; on failure, if `attempt >= max_attempts` re-raise the last
exception, otherwise sleep `2 * attempt` seconds and retry. -/
def callWithRetryFrom {ε α : Type} (attempts : Nat → Except ε α)
    (maxAttempts : Nat) (attempt : Nat) : RetryTrace ε α :=
  match attempts attempt with
  | .ok v => ⟨.ok v, 1, []⟩
  | .error e =>
    if _h : maxAttempts ≤ attempt then ⟨.error e, 1, []⟩
    else
      ⟨(callWithRetryFrom attempts maxAttempts (attempt + 1)).result,
        (callWithRetryFrom attempts maxAttempts (attempt + 1)).calls + 1,
        2 * attempt :: (callWithRetryFrom attempts maxAttempts (attempt + 1)).sleeps⟩
termination_by maxAttempts - attempt

/-- `_call_with_retry(description, func, max_attempts)`: the Python loop
runs `attempt` over `range(1, max_attempts + 1)`. -/
def callWithRetry {ε α : Type} (attempts : Nat → Except ε α)
    (maxAttempts : Nat := 5) : RetryTrace ε α :=
  callWithRetryFrom attempts maxAttempts 1

end StepFun

/-! ## Context-limit normalization in `BaseStepAgent.__init__`

Embedding of the limit-resolution logic of `BaseStepAgent.__init__`
(`cortex/agents/base_step_agent.py`, lines 115-156) together with
`get_context_limit_overrides` consumers.  A config entry is either absent /
`None` (the code treats both alike, via `is not None`), a numeric value
(Python `int(value)`; floats truncate toward zero, which only perturbs the
exact derived value and not the clamping logic below), or a non-numeric
value that `_normalize_limit` maps to `None`.
-/

namespace StepAgentLimits

/-- A value found in `extra_config` (when present): numeric or not.
Python `bool` is an `int` subclass, so booleans normalize as `1`/`0`. -/
inductive ConfigValue where
  | num (n : Int)
  | nonNum
  deriving Repr, DecidableEq

/-- `_normalize_limit`: numeric values become `int(value)`, everything else
(including `None`, handled by the caller as absence) becomes `None`. -/
def normalizeLimit : Option ConfigValue → Option Int
  | some (.num n) => some n
  | _ => none

/-- Inputs feeding the limit computation: the three `extra_config` entries
and the two runtime-config overrides (already `int`-normalized by
`get_context_limit_overrides`, or absent). -/
structure LimitInputs where
  extraUpper : Option ConfigValue
  extraLower : Option ConfigValue
  extraThreshold : Option ConfigValue
  runtimeUpper : Option Int
  runtimeLower : Option Int
  deriving Repr

/-- `DEFAULT_FORCE_FINAL_ANSWER_UPPER_LIMIT`. -/
def defaultUpperLimit : Int := 100000

/-- `DEFAULT_FORCE_FINAL_ANSWER_LOWER_LIMIT` (`max(int(100000 * 0.9), 1)`). -/
def defaultLowerLimit : Int := 90000

/-- The limit-resolution logic of `BaseStepAgent.__init__`: apply runtime
overrides only where `extra_config` is silent (the runtime lower override
additionally requires the upper not to come from `extra_config`), normalize,
fall back to the threshold key and then to defaults for the upper limit,
derive the lower limit as 90% of the upper when unset or non-positive, and
clamp so that `1 <= lower < upper`.  Returns `(upper, lower)`. -/
def computeLimits (inp : LimitInputs) : Int × Int :=
  let upperFromExtra := inp.extraUpper.isSome
  let lowerFromExtra := inp.extraLower.isSome
  let upperOverride : Option ConfigValue :=
    if !upperFromExtra then
      match inp.runtimeUpper with
      | some n => some (.num n)
      | none => inp.extraUpper
    else inp.extraUpper
  let lowerOverride : Option ConfigValue :=
    if !lowerFromExtra && !upperFromExtra then
      match inp.runtimeLower with
      | some n => some (.num n)
      | none => inp.extraLower
    else inp.extraLower
  let upper0 : Option Int :=
    match normalizeLimit upperOverride with
    | some u => some u
    | none => normalizeLimit inp.extraThreshold
  let upper1 : Int :=
    match upper0 with
    | none => defaultUpperLimit
    | some u => if u ≤ 0 then defaultUpperLimit else u
  let upper : Int := max upper1 2
  let lower0 : Option Int := normalizeLimit lowerOverride
  let lower1 : Int :=
    match lower0 with
    | some l => if l ≤ 0 then
        (let derived := 9 * upper / 10
         if derived > 0 then derived else defaultLowerLimit)
      else l
    | none =>
        let derived := 9 * upper / 10
        if derived > 0 then derived else defaultLowerLimit
  let lower2 : Int := max lower1 1
  let lower : Int := if lower2 ≥ upper then max (upper - 1) 1 else lower2
  (upper, lower)

end StepAgentLimits

/-! ## Generator merger registration

Embedding of `GeneratorMerger.add_generator` / `add_async_generator`
(`cortex/utils/generator_merger.py`).  Producers themselves are abstracted
as opaque tags (`Nat`); only the registry bookkeeping matters for the claim.
A producer id is *live* exactly when it is a key of one of the two registry
dicts: `_notify_generator_complete` deletes completed producers from them.
-/

namespace Merger

/-- The registry part of `GeneratorMerger` state: the sync and async
producer dicts (insertion-ordered association lists) and the set of
processed producer ids. -/
structure MergerState where
  generators : List (String × Nat)
  asyncGenerators : List (String × Nat)
  processedGenerators : List String
  deriving Repr, DecidableEq

/-- A producer id is live when it is registered in either dict and not yet
auto-deleted by completion (`generator_id in self._generators or
generator_id in self._async_generators`). -/
def MergerState.live (st : MergerState) (gid : String) : Bool :=
  st.generators.any (fun p => p.1 = gid) ||
    st.asyncGenerators.any (fun p => p.1 = gid)

/-- `add_generator(generator_func, generator_id)` with an explicit id:
raise `ValueError` when the id is live, otherwise insert the producer into
the sync dict.  The returned `Option String` is the raised error message
(`None` on success); on error the state is returned untouched, as the
Python `raise` happens before any mutation. -/
def addGenerator (st : MergerState) (f : Nat) (gid : String) :
    MergerState × Option String :=
  if st.live gid then
    (st, some ("Generator " ++ gid ++ " already exists"))
  else
    ({ st with generators := st.generators ++ [(gid, f)] }, none)

/-- `add_async_generator(async_generator_func, generator_id)` with an
explicit id; identical bookkeeping on the async dict. -/
def addAsyncGenerator (st : MergerState) (f : Nat) (gid : String) :
    MergerState × Option String :=
  if st.live gid then
    (st, some ("Generator " ++ gid ++ " already exists"))
  else
    ({ st with asyncGenerators := st.asyncGenerators ++ [(gid, f)] }, none)

end Merger

/-! ## Channel request/response correlation

Embedding of `Channel.send_request` / `Channel.set_response`
(`cortex/tools/channel.py`).  An `asyncio.Future` is modelled as an explicit
one-shot cell; the pending table maps request ids to cells.  The waiter side
of `send_request` is driven by a `WaitEvent` naming which of the four
possible resolutions happened; every exit path of the Python function
(normal return, `TimeoutError`, re-raised exception, cancellation) runs the
`finally: self._pending_requests.pop(request_id, None)`, modelled by
`popReq` (the extra pops in the `except` clauses are idempotent).
-/

namespace Channel

/-- The state of an `asyncio.Future`: a one-shot cell. -/
inductive FutureState (α : Type) where
  | pending
  | resolved (data : α)
  | failed (err : String)
  | cancelled
  deriving Repr, DecidableEq

/-- `future.done()`: true in every state but `pending`. -/
def FutureState.done {α : Type} : FutureState α → Bool
  | .pending => false
  | _ => true

/-- `Channel` state: the `_pending_requests` dict (request id to future) and
the `_request_counter`. -/
structure ChannelState (α : Type) where
  pendingRequests : List (String × FutureState α)
  requestCounter : Nat
  deriving Repr, DecidableEq

/-- `dict.get` on the pending table. -/
def lookupReq {α : Type} (rid : String) :
    List (String × FutureState α) → Option (FutureState α)
  | [] => none
  | (k, v) :: rest => if k = rid then some v else lookupReq rid rest

/-- `dict[rid] = fut`: overwrite in place, else append (insertion order). -/
def setReq {α : Type} (rid : String) (fut : FutureState α) :
    List (String × FutureState α) → List (String × FutureState α)
  | [] => [(rid, fut)]
  | (k, v) :: rest =>
    if k = rid then (k, fut) :: rest else (k, v) :: setReq rid fut rest

/-- `dict.pop(rid, None)`: drop the entry for `rid`. -/
def popReq {α : Type} (rid : String) :
    List (String × FutureState α) → List (String × FutureState α)
  | [] => []
  | (k, v) :: rest =>
    if k = rid then popReq rid rest else (k, v) :: popReq rid rest

/-- The one-shot cell value written by `set_response`: the carried
exception when `error` is truthy (Python `if error:`, so `""` and `None`
both mean success), the data otherwise. -/
def newFutOf {α : Type} (data : α) (err : Option String) : FutureState α :=
  match err with
  | some e => if e ≠ "" then FutureState.failed e else FutureState.resolved data
  | none => FutureState.resolved data

/-- `Channel.set_response(request_id, data, error)`: unknown ids are
ignored; a done future is left untouched; otherwise the future resolves
via `newFutOf`. -/
def setResponse {α : Type} (st : ChannelState α) (rid : String) (data : α)
    (err : Option String) : ChannelState α :=
  match lookupReq rid st.pendingRequests with
  | none => st
  | some fut =>
    if fut.done then st
    else { st with pendingRequests := setReq rid (newFutOf data err) st.pendingRequests }

/-- `future.cancel()`: cancel a pending future; no-op once done. -/
def cancelFuture {α : Type} (st : ChannelState α) (rid : String) : ChannelState α :=
  match lookupReq rid st.pendingRequests with
  | none => st
  | some fut =>
    if fut.done then st
    else { st with pendingRequests := setReq rid FutureState.cancelled st.pendingRequests }

/-- `Channel.create_request_id`. -/
def createRequestId {α : Type} (st : ChannelState α) : ChannelState α × String :=
  ({ st with requestCounter := st.requestCounter + 1 },
    "req_" ++ toString (st.requestCounter + 1))

/-- The prologue of `send_request`: allocate the request id when absent and
install a fresh pending future in the table. -/
def registerRequest {α : Type} (st : ChannelState α) (ridOpt : Option String) :
    ChannelState α × String :=
  match ridOpt with
  | some r =>
    ({ st with pendingRequests := setReq r FutureState.pending st.pendingRequests }, r)
  | none =>
    let st1 := (createRequestId st).1
    let r := (createRequestId st).2
    ({ st1 with pendingRequests := setReq r FutureState.pending st1.pendingRequests }, r)

/-- Which of the four possible resolutions of the wait happened. -/
inductive WaitEvent (α : Type) where
  | response (data : α) (err : Option String)
  | timeout
  | cancelled
  | sendRaised (e : String)
  deriving Repr, DecidableEq

/-- How `send_request` returns to its caller. -/
inductive Outcome (α : Type) where
  | success (rid : String) (data : α)
  | error (e : String)
  | timedOut
  | cancelled
  deriving Repr, DecidableEq

/-- One full run of `Channel.send_request`: register the future, then one of
the four resolutions fires; on a `set_response` resolution the waiter
returns `(request_id, data)` or re-raises the carried exception.  Every
path runs the `finally` pop of the pending entry. -/
def sendRequestRun {α : Type} (st : ChannelState α) (ridOpt : Option String)
    (ev : WaitEvent α) : ChannelState α × Outcome α :=
  let st1 := (registerRequest st ridOpt).1
  let rid := (registerRequest st ridOpt).2
  match ev with
  | .sendRaised e =>
    ({ st1 with pendingRequests := popReq rid st1.pendingRequests }, .error e)
  | .timeout =>
    ({ st1 with pendingRequests := popReq rid st1.pendingRequests }, .timedOut)
  | .cancelled =>
    ({ st1 with pendingRequests := popReq rid st1.pendingRequests }, .cancelled)
  | .response data err =>
    let st2 := setResponse st1 rid data err
    let out : Outcome α :=
      match err with
      | some e => if e ≠ "" then .error e else .success rid data
      | none => .success rid data
    ({ st2 with pendingRequests := popReq rid st2.pendingRequests }, out)

end Channel

/-! ## Context stores

Embedding of `SimpleContext` (`cortex/context/simple_context.py`) and
`FileContext` (`cortex/context/file_context.py`).  The claims hinge on
Python object identity, so list objects live in an explicit heap: an
address is an index into `Heap.cells`, `alloc` models creating a fresh list
object, `set` models in-place mutation.  A `SimpleContext` instance holds
only its session id; the module-level `simple_contexts` dict maps session
ids to the *address* of the stored list object.  `FileContext` keeps its
`_messages` / `_pending_messages` as plain values (it never hands out
references to them: `get_all` builds a fresh list), and the backing file is
the write-behind image of `messages ++ pending`, not modelled separately.
-/

namespace ContextStore

/-- Chat messages are opaque for the store claims. -/
abbrev Msg := String

/-- A heap of Python list objects: an address is an index into `cells`. -/
structure Heap where
  cells : List (List Msg)
  deriving Repr, DecidableEq

/-- Read the list object at an address. -/
def Heap.get (h : Heap) (a : Nat) : List Msg := h.cells.getD a []

/-- Mutate the list object at an address in place. -/
def Heap.set (h : Heap) (a : Nat) (v : List Msg) : Heap := ⟨h.cells.set a v⟩

/-- Create a fresh list object; returns the new heap and its address. -/
def Heap.alloc (h : Heap) (v : List Msg) : Heap × Nat :=
  (⟨h.cells ++ [v]⟩, h.cells.length)

/-- The module-level `simple_contexts` dict: session id to the address of
the stored message-list object. -/
structure SimpleContexts where
  table : List (String × Nat)
  deriving Repr, DecidableEq

/-- `dict.get` on `simple_contexts`. -/
def lookupSession (sid : String) : List (String × Nat) → Option Nat
  | [] => none
  | (k, v) :: rest => if k = sid then some v else lookupSession sid rest

/-- A `SimpleContext` instance holds only its session id. -/
structure SimpleContext where
  sessionId : String
  deriving Repr, DecidableEq

/-- `SimpleContext.add(msg)`: `extend` the stored list in place when the
session exists; otherwise store *the caller's list object itself*
(`simple_contexts[self.session_id] = msg`). -/
def SimpleContext.add (ctx : SimpleContext) (st : SimpleContexts) (h : Heap)
    (msgAddr : Nat) : SimpleContexts × Heap :=
  match lookupSession ctx.sessionId st.table with
  | some a => (st, h.set a (h.get a ++ h.get msgAddr))
  | none => (⟨st.table ++ [(ctx.sessionId, msgAddr)]⟩, h)

/-- `SimpleContext.get_all()`: `simple_contexts.get(self.session_id, [])` —
returns the stored list *object* (no copy) when the session exists, a fresh
empty list otherwise. -/
def SimpleContext.get_all (ctx : SimpleContext) (st : SimpleContexts)
    (h : Heap) : Heap × Nat :=
  match lookupSession ctx.sessionId st.table with
  | some a => (h, a)
  | none => h.alloc []

/-- `FileContext` state: `_messages`, `_pending_messages` and `_batch_size`
(the delayed-write task is modelled by `save` arriving later). -/
structure FileContext where
  messages : List Msg
  pendingMessages : List Msg
  batchSize : Nat
  deriving Repr, DecidableEq

/-- `_save_messages`: rewrite the file image and move pending messages to
the main list. -/
def FileContext.save (fc : FileContext) : FileContext :=
  { fc with messages := fc.messages ++ fc.pendingMessages, pendingMessages := [] }

/-- `_schedule_write`: write immediately when the batch size is reached. -/
def FileContext.scheduleWrite (fc : FileContext) : FileContext :=
  if fc.batchSize ≤ fc.pendingMessages.length then fc.save else fc

/-- `FileContext.add(messages)`: extend pending, then schedule the write. -/
def FileContext.add (fc : FileContext) (msgs : List Msg) : FileContext :=
  FileContext.scheduleWrite { fc with pendingMessages := fc.pendingMessages ++ msgs }

/-- `FileContext.get_all()`:
`(self._messages + self._pending_messages).copy()` — a fresh list object. -/
def FileContext.get_all (fc : FileContext) (h : Heap) : Heap × Nat :=
  h.alloc (fc.messages ++ fc.pendingMessages)

/-- The message log a `FileContext` holds. -/
def FileContext.log (fc : FileContext) : List Msg :=
  fc.messages ++ fc.pendingMessages

end ContextStore

/-! ## Step agent: context overflow machinery and the run loop

Embedding of `BaseStepAgent` (`cortex/agents/base_step_agent.py`).
`ChatMessage` (whose pydantic definition, `cortex/model/definition.py`, is
not among the repository files; its shape is modelled from the spec's data
model in section 3 and from how `base_step_agent.py` accesses it) carries
the fields this file reads: `role`, `content`, `tool_call_id`,
`tool_calls`.  Message text is a `List Char` so the tag-scanning functions
translate character by character.  The token estimator
`_estimate_token_length` depends on an optional BPE encoder, so every
function below takes the estimator as an explicit argument
`est : List ChatMessage → Nat`; the search predicate
`_is_search_tool_call` consumes a tool call only through its name and
JSON-decoded arguments, so the eviction machinery takes the composed
predicate `ToolCall → Bool` as an argument.
-/

namespace StepAgent

/-- One entry of a tool call's `function` field. -/
structure ToolCallFunction where
  name : Option String
  arguments : Option String

/-- A `ToolCall` (`{id, function, ...}`): the fields the eviction logic
reads. -/
structure ToolCall where
  id : Option String
  function : ToolCallFunction

/-- A content block (a Python dict): the keys
`_compress_batch_search_in_block` touches — `type`, `text` and a possibly
nested `content` list. -/
inductive ContentBlock where
  | mk (type? : Option String) (text? : Option (List Char))
      (content? : Option (List ContentBlock))

/-- `ChatMessage.content`: `None`, a plain string, or a block list. -/
inductive MsgContent where
  | null
  | text (s : List Char)
  | blocks (bs : List ContentBlock)

/-- A chat message, reduced to the fields `base_step_agent.py` reads.
`tool_calls = []` stands for both Python `None` and `[]` (the code only
ever tests truthiness: `if not tool_calls`). -/
structure ChatMessage where
  role : Option String
  content : MsgContent
  tool_call_id : Option String
  tool_calls : List ToolCall

/-- Python truthiness of an optional string: `None` and `""` are falsy. -/
def strTruthy : Option String → Bool
  | some s => s != ""
  | none => false

/-- `pat` is a leading prefix of `l` (character comparison). -/
def leadsChars : List Char → List Char → Bool
  | [], _ => true
  | _ :: _, [] => false
  | p :: ps, c :: cs => p == c && leadsChars ps cs

/-- Index of the first occurrence of `pat` in `l` (Python `str.find`). -/
def findSubIdx (pat : List Char) : List Char → Option Nat
  | [] => if leadsChars pat [] then some 0 else none
  | c :: rest =>
    if leadsChars pat (c :: rest) then some 0
    else (findSubIdx pat rest).map (· + 1)

/-- Python `pat in l`. -/
def containsSub (pat l : List Char) : Bool := (findSubIdx pat l).isSome

/-- Python `l.replace(pat, repl, 1)`: replace the first occurrence only. -/
def replaceFirstChars (l pat repl : List Char) : List Char :=
  match findSubIdx pat l with
  | none => l
  | some i => l.take i ++ repl ++ l.drop (i + pat.length)

/-- Python `\s` (ASCII): space, tab, newline, carriage return, vertical
tab, form feed. -/
def isSpaceChar (c : Char) : Bool :=
  c == ' ' || c == '\t' || c == '\n' || c == '\r' ||
    c == Char.ofNat 11 || c == Char.ofNat 12

/-- `re.sub(r"<content>.*?</content>\s*", "", content, flags=re.S)`: drop
each leftmost non-greedy `<content>...</content>` region together with the
whitespace run after it, scanning left to right.  When an opening tag has
no closing tag after it the string is returned unchanged (no later opening
can have one either).  `fuel` bounds the recursion; each step consumes at
least one character, so `l.length` fuel always suffices. -/
def removeContentGo (fuel : Nat) (l : List Char) : List Char :=
  match fuel with
  | 0 => l
  | fuel + 1 =>
    match findSubIdx "<content>".toList l with
    | none => l
    | some i =>
      match findSubIdx "</content>".toList (l.drop (i + 9)) with
      | none => l
      | some j =>
        l.take i ++
          removeContentGo fuel ((l.drop (i + 9 + j + 10)).dropWhile isSpaceChar)

/-- `_compress_batch_search_result`, step 1: strip `<content>` regions. -/
def removeContentBlocksChars (l : List Char) : List Char :=
  removeContentGo l.length l

/-- `_compress_batch_search_result(content)`: strip `<content>` regions,
then rename the first `<batch_search_results>` wrapper and the first
`</batch_search_results>` closer to their `_compressed` forms. -/
def compressBatchSearchResult (s : List Char) : List Char :=
  replaceFirstChars
    (replaceFirstChars (removeContentBlocksChars s)
      "<batch_search_results>".toList "<batch_search_results_compressed>".toList)
    "</batch_search_results>".toList "</batch_search_results_compressed>".toList

/-- The compressibility test of `_compress_batch_search_in_block` /
`_compress_batch_search_in_content`: the text contains
`"<batch_search_results"` and not `"batch_search_results_compressed"`. -/
def textMatchesBatch (t : List Char) : Bool :=
  containsSub "<batch_search_results".toList t &&
    !containsSub "batch_search_results_compressed".toList t

/-- The text-key test of `_compress_batch_search_in_block` on an optional
`text` value (non-string values fail `isinstance(text_value, str)`). -/
def blockTextMatches : Option (List Char) → Bool
  | some t => textMatchesBatch t
  | none => false

mutual

/-- `_compress_batch_search_in_block` (in place; returns the new block and
the `changed` flag): compress the block's own text when it is a matching
`text` block, otherwise recurse into the first changing item of its nested
`content` list. -/
def compressInBlock : ContentBlock → ContentBlock × Bool
  | .mk type? text? content? =>
    if (type? == some "text") && blockTextMatches text? then
      (.mk type? (text?.map compressBatchSearchResult) content?, true)
    else
      match content? with
      | some items =>
        let r := compressInList items
        (.mk type? text? (some r.1), r.2)
      | none => (.mk type? text? content?, false)

/-- The loop over nested blocks: stop at the first item that changed. -/
def compressInList : List ContentBlock → List ContentBlock × Bool
  | [] => ([], false)
  | b :: rest =>
    let r := compressInBlock b
    if r.2 then (r.1 :: rest, true)
    else
      let rr := compressInList rest
      (b :: rr.1, rr.2)

end

/-- `_compress_batch_search_in_content(content)`: string content is
compressed when it matches; list content delegates to the first changing
block; anything else is returned unchanged. -/
def compressInContent : MsgContent → MsgContent × Bool
  | .null => (.null, false)
  | .text s =>
    if textMatchesBatch s then (.text (compressBatchSearchResult s), true)
    else (.text s, false)
  | .blocks bs =>
    let r := compressInList bs
    (.blocks r.1, r.2)

/-- `_shrink_batch_search_results(messages)`: compress the earliest message
whose content changes; `none` when nothing changed (Python returns
`False` with the list untouched). -/
def shrinkBatchSearchResults : List ChatMessage → Option (List ChatMessage)
  | [] => none
  | m :: rest =>
    let r := compressInContent m.content
    if r.2 then some ({ m with content := r.1 } :: rest)
    else (shrinkBatchSearchResults rest).map (m :: ·)

/-- `matched_any` of `_drop_oldest_tool_cycle`: with no predicate every
tool call matches; with one, some call must satisfy it.  (The source calls
the predicate on `(tool_name, parsed_args)`, both computed from the tool
call alone, so the predicate is taken here directly on the `ToolCall`.) -/
def matchedAny (pred : Option (ToolCall → Bool)) (tcs : List ToolCall) : Bool :=
  tcs.any (fun tc =>
    match pred with
    | none => true
    | some p => p tc)

/-- A message opens a tool cycle: it has tool calls and one matches. -/
def cycleMatches (pred : Option (ToolCall → Bool)) (m : ChatMessage) : Bool :=
  !m.tool_calls.isEmpty && matchedAny pred m.tool_calls

/-- The scan of `_drop_oldest_tool_cycle` for the earliest matching
tool-call message: its index and the message. -/
def findCycle (pred : Option (ToolCall → Bool)) :
    List ChatMessage → Option (Nat × ChatMessage)
  | [] => none
  | m :: rest =>
    if cycleMatches pred m then some (0, m)
    else (findCycle pred rest).map (fun p => (p.1 + 1, p.2))

/-- `getattr(tool_msg, "role", None) == "tool" and tool_msg.tool_call_id ==
tc_id`. -/
def isToolResultFor (tcId : String) (m : ChatMessage) : Bool :=
  m.role == some "tool" && m.tool_call_id == some tcId

/-- The inner scan of `_drop_oldest_tool_cycle`: index of the *first*
matching tool-result message (the Python loop `break`s after one hit). -/
def findToolResultIdx (tcId : String) : List ChatMessage → Option Nat
  | [] => none
  | m :: rest =>
    if isToolResultFor tcId m then some 0
    else (findToolResultIdx tcId rest).map (· + 1)

/-- The `drop_indices` set of one eviction step: the tool-call message at
`idx` plus, for each call with a truthy id, the first matching tool result
after `idx`. -/
def dropIndicesFor (msgs : List ChatMessage) (idx : Nat) (tcs : List ToolCall) :
    List Nat :=
  idx :: tcs.filterMap (fun tc =>
    match tc.id with
    | some i =>
      if i != "" then (findToolResultIdx i (msgs.drop (idx + 1))).map (· + idx + 1)
      else none
    | none => none)

/-- Popping the collected indices in descending order = keeping every
position outside the set. -/
def removeIndicesGo (drop : List Nat) (i : Nat) :
    List ChatMessage → List ChatMessage
  | [] => []
  | m :: rest =>
    if i ∈ drop then removeIndicesGo drop (i + 1) rest
    else m :: removeIndicesGo drop (i + 1) rest

/-- Remove the messages at the given positions. -/
def removeIndices (msgs : List ChatMessage) (drop : List Nat) :
    List ChatMessage :=
  removeIndicesGo drop 0 msgs

/-- `_drop_oldest_tool_cycle(messages, predicate)`: `none` when no message
matches (Python returns `False`), otherwise the list with the earliest
matching tool-call message and the first result of each of its calls
removed. -/
def dropOldestToolCycle (pred : Option (ToolCall → Bool))
    (msgs : List ChatMessage) : Option (List ChatMessage) :=
  match findCycle pred msgs with
  | none => none
  | some (idx, m) => some (removeIndices msgs (dropIndicesFor msgs idx m.tool_calls))

/-- The body of `_trim_oldest_messages`: walk `idx` forward, skipping
system messages and popping others, while the estimate exceeds the upper
limit.  Each iteration advances `idx` or shortens the list, so
`2 * msgs.length + 2` fuel always suffices. -/
def trimGo (est : List ChatMessage → Nat) (upper : Nat) :
    Nat → Nat → List ChatMessage → Bool → List ChatMessage × Bool
  | 0, _, msgs, removed => (msgs, removed)
  | fuel + 1, idx, msgs, removed =>
    if idx < msgs.length ∧ upper < est msgs then
      match msgs.get? idx with
      | some m =>
        if m.role == some "system" then trimGo est upper fuel (idx + 1) msgs removed
        else trimGo est upper fuel idx (msgs.take idx ++ msgs.drop (idx + 1)) true
      | none => (msgs, removed)
    else (msgs, removed)

/-- `_trim_oldest_messages(messages)`: drop oldest non-system messages
while over the upper limit; returns the list and the `removed` flag. -/
def trimOldestMessages (est : List ChatMessage → Nat) (upper : Nat)
    (msgs : List ChatMessage) : List ChatMessage × Bool :=
  if msgs.length ≤ 1 then (msgs, false)
  else trimGo est upper (2 * msgs.length + 2) 0 msgs false

/-- The loop of `_ensure_context_within_upper_limit`: while over the upper
limit, drop the oldest tool cycle (any predicate), else trim oldest
messages, else stop.  Every productive iteration shortens the list, so
`msgs.length + 1` fuel always suffices. -/
def ensureLoop (est : List ChatMessage → Nat) (upper : Nat) :
    Nat → List ChatMessage → List ChatMessage
  | 0, msgs => msgs
  | fuel + 1, msgs =>
    if est msgs ≤ upper then msgs
    else
      match dropOldestToolCycle none msgs with
      | some msgs2 => ensureLoop est upper fuel msgs2
      | none =>
        let t := trimOldestMessages est upper msgs
        if t.2 then ensureLoop est upper fuel t.1 else t.1

/-- `_ensure_context_within_upper_limit(messages)`. -/
def ensureContextWithinUpperLimit (est : List ChatMessage → Nat)
    (enabled : Bool) (upper : Nat) (msgs : List ChatMessage) :
    List ChatMessage :=
  if !enabled then msgs else ensureLoop est upper (msgs.length + 1) msgs

/-- The `while True` loop of `_handle_context_overflow`: until the estimate
drops below the lower limit, compress the earliest batch-search payload,
else evict the earliest search tool cycle, else stop.  `none` records that
the Python loop has not terminated within `fuel` iterations (the loop has
no other exit). -/
def overflowLoop (est : List ChatMessage → Nat) (searchPred : ToolCall → Bool)
    (lower : Nat) : Nat → List ChatMessage → Option (List ChatMessage)
  | 0, _ => none
  | fuel + 1, msgs =>
    if est msgs < lower then some msgs
    else
      match shrinkBatchSearchResults msgs with
      | some msgs2 => overflowLoop est searchPred lower fuel msgs2
      | none =>
        match dropOldestToolCycle (some searchPred) msgs with
        | some msgs2 => overflowLoop est searchPred lower fuel msgs2
        | none => some msgs

/-- The agent's overflow configuration (`force_final_answer`,
`_force_final_answer_upper_limit`, `_force_final_answer_lower_limit`). -/
structure OverflowConfig where
  forceFinalAnswerEnabled : Bool
  upperLimit : Nat
  lowerLimit : Nat

/-- `_handle_context_overflow(messages)`: returns the processed working
copy and the (possibly newly set) `_force_prompt_inserted` flag; `none`
when the inner loop does not terminate within `fuel` iterations. -/
def handleContextOverflow (est : List ChatMessage → Nat)
    (searchPred : ToolCall → Bool) (cfg : OverflowConfig)
    (promptInserted : Bool) (fuel : Nat) (msgs : List ChatMessage) :
    Option (List ChatMessage × Bool) :=
  if !cfg.forceFinalAnswerEnabled then some (msgs, promptInserted)
  else if est msgs < cfg.upperLimit then some (msgs, promptInserted)
  else
    match overflowLoop est searchPred cfg.lowerLimit fuel msgs with
    | none => none
    | some msgs2 =>
      if est msgs2 < cfg.lowerLimit then some (msgs2, promptInserted)
      else some (msgs2, true)

/-- `_make_force_final_answer_message()`: a system message carrying the
force-final-answer prompt. -/
def makeForcePrompt (promptText : List Char) : ChatMessage :=
  { role := some "system", content := .text promptText,
    tool_call_id := none, tool_calls := [] }

/-- Python `==` between a message content and the prompt's string content. -/
def contentIsText (c : MsgContent) (t : List Char) : Bool :=
  match c with
  | .text s => s == t
  | _ => false

/-- `_ensure_final_prompt(messages)`: when final-answer mode is active,
append the prompt to the *model input* unless it is already the last
message. -/
def ensureFinalPrompt (enabled promptInserted : Bool) (promptText : List Char)
    (msgs : List ChatMessage) : List ChatMessage :=
  if !(enabled && promptInserted) then msgs
  else
    match msgs.getLast? with
    | some last =>
      if last.role == some "system" && contentIsText last.content promptText then msgs
      else msgs ++ [makeForcePrompt promptText]
    | none => msgs ++ [makeForcePrompt promptText]

/-- The agent state the run loop threads: the persisted context store and
the `_force_prompt_inserted` flag. -/
structure AgentState where
  context : List ChatMessage
  promptInserted : Bool

/-- `_prepare_messages_for_model()`: build the model input from
`context.get_all()` — early when final-answer mode is off or the estimate
is under the upper limit, otherwise deep-copy (value semantics here) and
run the overflow pipeline.  The first component is the model input (`none`
when `_handle_context_overflow` does not terminate); the returned state
carries the possibly-updated prompt flag and the untouched context. -/
def prepareMessagesForModel (est : List ChatMessage → Nat)
    (searchPred : ToolCall → Bool) (cfg : OverflowConfig)
    (promptText : List Char) (fuel : Nat) (st : AgentState) :
    Option (List ChatMessage) × AgentState :=
  if !cfg.forceFinalAnswerEnabled then (some st.context, st)
  else
    if est (ensureFinalPrompt cfg.forceFinalAnswerEnabled st.promptInserted
        promptText st.context) < cfg.upperLimit then
      (some (ensureFinalPrompt cfg.forceFinalAnswerEnabled st.promptInserted
        promptText st.context), st)
    else
      match handleContextOverflow est searchPred cfg st.promptInserted fuel
        (ensureFinalPrompt cfg.forceFinalAnswerEnabled st.promptInserted
          promptText st.context) with
      | none => (none, st)
      | some (messages2, inserted2) =>
        (some (ensureContextWithinUpperLimit est cfg.forceFinalAnswerEnabled
            cfg.upperLimit
            (ensureFinalPrompt cfg.forceFinalAnswerEnabled inserted2 promptText
              messages2)),
          { st with promptInserted := inserted2 })

/-- `AgentMessageType`. -/
inductive AgentMessageType where
  | stream
  | accumulated
  | final
  deriving Repr, DecidableEq

/-- An `AgentResponse`, reduced to the fields the persistence logic of
`_run` reads. -/
structure AgentResponse where
  message : Option ChatMessage
  message_type : AgentMessageType
  status : String

/-- The persistence decision of `_run` (lines 510-534) for one response:
skip responses without a message, skip STREAM messages, persist a message
only when its `role` is truthy. -/
def persistOf (r : AgentResponse) : Option ChatMessage :=
  match r.message with
  | none => none
  | some m =>
    if r.message_type = AgentMessageType.stream then none
    else if strTruthy m.role then some m
    else none

/-- The response loop of one `_run` round: persist each response's message
per `persistOf`, stopping after a response with status `error` (the loop
`break`s). -/
def processResponses (ctx : List ChatMessage) :
    List AgentResponse → List ChatMessage
  | [] => ctx
  | r :: rest =>
    let ctx2 :=
      match persistOf r with
      | some m => ctx ++ [m]
      | none => ctx
    if r.status = "error" then ctx2 else processResponses ctx2 rest

/-- One round of `_run` as it touches the context store: the caller's input
messages are added unconditionally (`self.context.add(input_messages)`),
then the step responses are persisted per the response loop. -/
def runRound (ctx inputs : List ChatMessage)
    (responses : List AgentResponse) : List ChatMessage :=
  processResponses (ctx ++ inputs) responses

/-- A tool message whose content contains the substring
`"<batch_search_results"` but not the exact wrapper tag
`"<batch_search_results>"` (an attribute follows the tag name), used to
analyse the overflow loop. -/
def malformedBatchMsg : ChatMessage :=
  { role := some "tool", content := .text "<batch_search_results x".toList,
    tool_call_id := none, tool_calls := [] }

/-- A caller-supplied input message without a role. -/
def noRoleMsg : ChatMessage :=
  { role := none, content := .null, tool_call_id := none, tool_calls := [] }

/-- An assistant message with one tool call of id `"a"`. -/
def exAsstMsg : ChatMessage :=
  { role := some "assistant", content := .null, tool_call_id := none,
    tool_calls := [{ id := some "a", function := { name := some "t", arguments := some "{}" } }] }

/-- A tool-result message for call id `"a"`. -/
def exToolMsg : ChatMessage :=
  { role := some "tool", content := .null, tool_call_id := some "a",
    tool_calls := [] }

end StepAgent

/-! ## Streaming delta merge

Embedding of `merge_delta_message` (`cortex/model/utils.py`).  Values are
JSON-like Python values: Python `bool` is an `int` subclass and behaves as
`1`/`0` in every operation this function performs (isinstance dispatch,
truthiness, `+`, `==`), so booleans are encoded as ints; floats are not
modelled (ints cover the claim's summing rule).  Dicts are insertion-ordered
association lists with unique keys.  An `Option` result models a raised
exception (`KeyError` on a tool call without `"index"`, `TypeError` on
unhashable dict keys, non-iterable iteration or a mismatched `+=`, and the
`IndexError` of `new_value[-1]` on an empty accumulator).  One deviation:
Python `==` on dicts ignores key order while `pyEq` compares entries in
order; the two agree on everything the `type`/`index` tags hold in
practice (strings, ints, `None`).
-/

namespace MergeDelta

/-- A hashable Python value usable as a dict key (`toolcall[v["index"]]`).
Unhashable values (lists, dicts) raise `TypeError` when used as keys. -/
inductive JKey where
  | str (s : String)
  | int (n : Int)
  | null
  deriving Repr, DecidableEq

/-- A JSON-like Python value. -/
inductive JVal where
  | str (s : String)
  | int (n : Int)
  | null
  | list (l : List JVal)
  | obj (o : List (String × JVal))

/-- A Python dict. -/
abbrev JObj := List (String × JVal)

mutual

/-- Python `==` on values (order-sensitive on dicts, see the section
comment). -/
def pyEq : JVal → JVal → Bool
  | .str a, .str b => a == b
  | .int a, .int b => a == b
  | .null, .null => true
  | .list a, .list b => pyEqList a b
  | .obj a, .obj b => pyEqObj a b
  | _, _ => false

/-- Python `==` on lists. -/
def pyEqList : List JVal → List JVal → Bool
  | [], [] => true
  | x :: xs, y :: ys => pyEq x y && pyEqList xs ys
  | _, _ => false

/-- Python `==` on dict entry lists. -/
def pyEqObj : List (String × JVal) → List (String × JVal) → Bool
  | [], [] => true
  | (k1, v1) :: xs, (k2, v2) :: ys => k1 == k2 && pyEq v1 v2 && pyEqObj xs ys
  | _, _ => false

end

/-- `d.get(k)` / `k in d`: first (unique) entry. -/
def objLookup (k : String) : JObj → Option JVal
  | [] => none
  | (k0, v) :: rest => if k0 = k then some v else objLookup k rest

/-- `d[k] = v`: overwrite in place, else append (insertion order). -/
def objSet (k : String) (v : JVal) : JObj → JObj
  | [] => [(k, v)]
  | (k0, v0) :: rest =>
    if k0 = k then (k0, v) :: rest else (k0, v0) :: objSet k v rest

/-- Python truthiness. -/
def JVal.truthy : JVal → Bool
  | .str s => s != ""
  | .int n => n != 0
  | .null => false
  | .list l => !l.isEmpty
  | .obj o => !o.isEmpty

/-- `isinstance(v, list)`. -/
def JVal.isList : JVal → Bool
  | .list _ => true
  | _ => false

/-- The key a value hashes to; `none` models the `TypeError` of using an
unhashable value as dict key. -/
def JVal.toKey : JVal → Option JKey
  | .str s => some (.str s)
  | .int n => some (.int n)
  | .null => some .null
  | _ => none

/-- The `toolcall` dict of the `tool_calls` branch: index value to entry. -/
abbrev TcAcc := List (JKey × JVal)

/-- Lookup in the `toolcall` dict. -/
def tcLookup (k : JKey) : TcAcc → Option JVal
  | [] => none
  | (k0, v) :: rest => if k0 = k then some v else tcLookup k rest

/-- Assignment in the `toolcall` dict (insertion order preserved). -/
def tcSet (k : JKey) (v : JVal) : TcAcc → TcAcc
  | [] => [(k, v)]
  | (k0, v0) :: rest =>
    if k0 = k then (k0, v) :: rest else (k0, v0) :: tcSet k v rest

/-- Python `+=` as the post-processing merge uses it on block fields:
concatenation on strings and lists, addition on ints, `TypeError`
otherwise. -/
def jAdd : JVal → JVal → Option JVal
  | .str a, .str b => some (.str (a ++ b))
  | .int a, .int b => some (.int (a + b))
  | .list a, .list b => some (.list (a ++ b))
  | _, _ => none

mutual

/-- A computable size of a value: an upper-bound driver for the merge
recursion's fuel (every proper subvalue has strictly smaller size). -/
def JVal.jsize : JVal → Nat
  | .str _ => 1
  | .int _ => 1
  | .null => 1
  | .list l => 1 + jsizeList l
  | .obj o => 1 + jsizeObj o

/-- Size of a list of values. -/
def jsizeList : List JVal → Nat
  | [] => 1
  | x :: xs => 1 + JVal.jsize x + jsizeList xs

/-- Size of a dict entry list. -/
def jsizeObj : List (String × JVal) → Nat
  | [] => 1
  | (_, v) :: xs => 1 + JVal.jsize v + jsizeObj xs

end

/-- Phase 1 of the `tool_calls` branch: `for v in result[key]:
toolcall[v["index"]] = v` — every item must be a dict carrying a hashable
`"index"` (otherwise `KeyError` / `TypeError`); later duplicates
overwrite. -/
def toolcallFillBaseGo (acc : TcAcc) : List JVal → Option TcAcc
  | [] => some acc
  | x :: xs =>
    match x with
    | .obj xd =>
      match objLookup "index" xd with
      | some idxv =>
        match idxv.toKey with
        | some key => toolcallFillBaseGo (tcSet key x acc) xs
        | none => none
      | none => none
    | _ => none

/-- `if result[key]: for v in result[key]: ...` — a truthy non-list cannot
be iterated into indexable items (`TypeError`), a falsy value skips the
loop. -/
def toolcallBase (cur : JVal) : Option TcAcc :=
  if cur.truthy then
    match cur with
    | .list items => toolcallFillBaseGo [] items
    | _ => none
  else some []

/-- `"type" in value[i]`: key membership on a dict, substring on a string,
element membership on a list, `TypeError` otherwise. -/
def containsTypeKey : JVal → Option Bool
  | .obj o => some (o.any (fun p => p.1 = "type"))
  | .str s => some (StepAgent.containsSub "type".toList s.toList)
  | .list l => some (l.any (fun x => pyEq x (.str "type")))
  | .int _ => none
  | .null => none

/-- The merge of a same-tag item into `new_value[-1]`: every non-`type`
field is `+=`-combined when present, set otherwise. -/
def mergeItemInto (last : JObj) : JObj → Option JObj
  | [] => some last
  | (k, v) :: rest =>
    if k = "type" then mergeItemInto last rest
    else
      match objLookup k last with
      | some old =>
        (match jAdd old v with
          | some nv => mergeItemInto (objSet k nv last) rest
          | none => none)
      | none => mergeItemInto (objSet k v last) rest

/-- The post-processing loop over one list value: items without a `type`
key are skipped (dropped), consecutive items with the same `type` and
`index` coalesce into the previous kept item, the rest are appended.
`newRev` is `new_value` reversed; `lastType`/`lastIndex` start as Python
`None`. -/
def postLoop (newRev : List JVal) (lastType lastIndex : JVal) :
    List JVal → Option (List JVal)
  | [] => some newRev.reverse
  | x :: xs =>
    match containsTypeKey x with
    | none => none
    | some false => postLoop newRev lastType lastIndex xs
    | some true =>
      match x with
      | .obj xo =>
        match objLookup "type" xo with
        | none => none
        | some curType =>
          let curIndex := (objLookup "index" xo).getD .null
          if pyEq curType lastType && pyEq curIndex lastIndex then
            match newRev with
            | [] => none
            | lastItem :: restRev =>
              match lastItem with
              | .obj lastObj =>
                (match mergeItemInto lastObj xo with
                  | some merged => postLoop (.obj merged :: restRev) curType curIndex xs
                  | none => none)
              | _ => none
          else postLoop (.obj xo :: newRev) curType curIndex xs
      | _ => none

/-- The second loop of `merge_delta_message`: post-process every list
value of the result, in place. -/
def postProcessEntries : JObj → Option JObj
  | [] => some []
  | (k, v) :: rest =>
    match
      (match v with
        | .list items =>
          (match postLoop [] .null .null items with
            | some items2 => some (JVal.list items2)
            | none => none)
        | _ => some v)
    with
    | none => none
    | some v2 =>
      match postProcessEntries rest with
      | some rest2 => some ((k, v2) :: rest2)
      | none => none

mutual

/-- `merge_delta_message(d1, d2)` on two dicts: the accumulation loop over
`d2.items()` followed by the list post-processing loop.  The recursion of
the source consumes a strict subvalue of the delta argument at every
nested call, so it terminates; the explicit `fuel` makes that recursion
structural (every call passes `fuel` down), and `fuel = 4 * jsizeObj d2 + 4`
is always enough — fuel exhaustion returns `none` and is never reached
from the `mergeDeltaMessage` entry point below. -/
def mergeDicts : Nat → JObj → JObj → Option JObj
  | 0, _, _ => none
  | fuel + 1, d1, d2 =>
    match mergeEntries fuel d1 d2 with
    | some r => postProcessEntries r
    | none => none

/-- `for key, value in d2.items():` accumulate one key at a time. -/
def mergeEntries : Nat → JObj → JObj → Option JObj
  | 0, _, _ => none
  | _ + 1, result, [] => some result
  | fuel + 1, result, (k, v) :: rest =>
    match mergeEntry fuel result k v with
    | some r => mergeEntries fuel r rest
    | none => none

/-- The loop body for one `key, value` of `d2`: absent keys are copied;
`index` is kept; `role`/`id` keep the first truthy value; `tool_calls`
are merged by their `index` field; dicts merge recursively; strings
concatenate except `type`/`id` which are overwritten by a truthy later
value; lists concatenate; ints add; otherwise a truthy value overwrites. -/
def mergeEntry : Nat → JObj → String → JVal → Option JObj
  | 0, _, _, _ => none
  | fuel + 1, result, k, v =>
    match objLookup k result with
    | none => some (objSet k v result)
    | some cur =>
      if k = "index" then some result
      else if k = "role" || k = "id" then
        some (if !cur.truthy && v.truthy then objSet k v result else result)
      else if k = "tool_calls" then
        match toolcallBase cur with
        | none => none
        | some base =>
          match
            (match v with
              | .list items =>
                if !items.isEmpty then toolcallFillMergeGo fuel base items
                else some base
              | w => if w.truthy then toolcallStep fuel base w else some base)
          with
          | none => none
          | some filled =>
            some (objSet k (JVal.list (filled.map Prod.snd)) result)
      else
        match cur, v with
        | .obj c, .obj d =>
          (match mergeDicts fuel c d with
            | some m => some (objSet k (.obj m) result)
            | none => none)
        | .str a, .str b =>
          some (if b ≠ "" then
              (if k = "type" || k = "id" then objSet k (.str b) result
               else objSet k (.str (a ++ b)) result)
            else result)
        | .list a, .list b => some (objSet k (.list (a ++ b)) result)
        | .int a, .int b => some (objSet k (.int (a + b)) result)
        | _, _ => some (if v.truthy then objSet k v result else result)

/-- Phase 2 of the `tool_calls` branch, one delta item: merge into the
entry with the same `index`, or insert. -/
def toolcallStep : Nat → TcAcc → JVal → Option TcAcc
  | 0, _, _ => none
  | fuel + 1, acc, x =>
    match x with
    | .obj xd =>
      match objLookup "index" xd with
      | some idxv =>
        match idxv.toKey with
        | some key =>
          match tcLookup key acc with
          | some stored =>
            match stored with
            | .obj sd =>
              (match mergeDicts fuel sd xd with
                | some m => some (tcSet key (.obj m) acc)
                | none => none)
            | _ => none
          | none => some (tcSet key x acc)
        | none => none
      | none => none
    | _ => none

/-- Phase 2 over all delta items. -/
def toolcallFillMergeGo : Nat → TcAcc → List JVal → Option TcAcc
  | 0, _, _ => none
  | _ + 1, acc, [] => some acc
  | fuel + 1, acc, x :: xs =>
    match toolcallStep fuel acc x with
    | some acc2 => toolcallFillMergeGo fuel acc2 xs
    | none => none

end

/-- `merge_delta_message(d1, d2)` including the `None` short-circuits.  The
outer `Option` models a raised exception; the inner one the `None`
value. -/
def mergeDeltaMessage : Option JObj → Option JObj → Option (Option JObj)
  | none, d2 => some d2
  | some d1, none => some (some d1)
  | some d1, some d2 =>
    match mergeDicts (4 * jsizeObj d2 + 4) d1 d2 with
    | some r => some (some r)
    | none => none

/-- The dict key a tool-call entry is registered under: its `"index"`
value's hash key. -/
def indexKeyOf : JVal → Option JKey
  | .obj xd =>
    (match objLookup "index" xd with
      | some idxv => idxv.toKey
      | none => none)
  | _ => none

/-- The entry of a tool-call list holding a given `index` key (used to
state the merged-by-index property; under distinct indices it is the one
entry with that index). -/
def entryWithIndex (i : JKey) : List JVal → Option JObj
  | [] => none
  | .obj xd :: xs =>
    if indexKeyOf (.obj xd) = some i then some xd else entryWithIndex i xs
  | _ :: xs => entryWithIndex i xs

end MergeDelta

/-! # Theorems -/

open StepFun StepAgentLimits Merger Channel ContextStore StepAgent MergeDelta

/-- Helper: shifting a `2*(a+i)` enumeration by one. -/
theorem rangeMapShift (a n : Nat) :
    (List.range (n + 1)).map (fun i => 2 * (a + i)) =
      2 * a :: (List.range n).map (fun i => 2 * (a + 1 + i)) := by
  rw [List.range_succ_eq_map, List.map_cons, List.map_map]
  refine congrArg₂ List.cons (by simp) (List.map_congr_left fun i _ => ?_)
  simp only [Function.comp_apply]
  omega

/-- Unfolding equation: successful attempt. -/
theorem callWithRetryFrom_eq_ok {ε α : Type} (attempts : Nat → Except ε α)
    (maxAttempts attempt : Nat) (v : α) (h : attempts attempt = .ok v) :
    callWithRetryFrom attempts maxAttempts attempt = ⟨.ok v, 1, []⟩ := by
  rw [callWithRetryFrom, h]

/-- Unfolding equation: failed attempt at the retry budget. -/
theorem callWithRetryFrom_eq_last {ε α : Type} (attempts : Nat → Except ε α)
    (maxAttempts attempt : Nat) (e : ε) (h : attempts attempt = .error e)
    (hle : maxAttempts ≤ attempt) :
    callWithRetryFrom attempts maxAttempts attempt = ⟨.error e, 1, []⟩ := by
  rw [callWithRetryFrom, h]
  simp [hle]

/-- Unfolding equation: failed attempt with budget remaining. -/
theorem callWithRetryFrom_eq_step {ε α : Type} (attempts : Nat → Except ε α)
    (maxAttempts attempt : Nat) (e : ε) (h : attempts attempt = .error e)
    (hle : ¬ maxAttempts ≤ attempt) :
    callWithRetryFrom attempts maxAttempts attempt =
      ⟨(callWithRetryFrom attempts maxAttempts (attempt + 1)).result,
        (callWithRetryFrom attempts maxAttempts (attempt + 1)).calls + 1,
        2 * attempt :: (callWithRetryFrom attempts maxAttempts (attempt + 1)).sleeps⟩ := by
  rw [callWithRetryFrom, h]
  simp [hle]

/-- Helper: the retry trace starting at `attempt` with all attempts up to
`maxAttempts` failing: the last exception is re-raised, the wrapped call
runs once per remaining attempt, and every back-off sleep happens. -/
theorem callWithRetryFrom_allFail {ε α : Type} (attempts : Nat → Except ε α)
    (maxAttempts attempt : Nat) (h2 : attempt ≤ maxAttempts)
    (hfail : ∀ k, attempt ≤ k → k ≤ maxAttempts → ∃ e, attempts k = .error e) :
    callWithRetryFrom attempts maxAttempts attempt =
      ⟨attempts maxAttempts, maxAttempts - attempt + 1,
        (List.range (maxAttempts - attempt)).map (fun i => 2 * (attempt + i))⟩ := by
  obtain ⟨e, he⟩ := hfail attempt le_rfl h2
  by_cases hle : maxAttempts ≤ attempt
  · have hEq : attempt = maxAttempts := le_antisymm h2 hle
    subst hEq
    rw [callWithRetryFrom_eq_last attempts attempt attempt e he hle, he]
    simp
  · have ih := callWithRetryFrom_allFail attempts maxAttempts (attempt + 1)
      (by omega) (fun k hk1 hk2 => hfail k (by omega) hk2)
    rw [callWithRetryFrom_eq_step attempts maxAttempts attempt e he hle, ih]
    have hn : maxAttempts - attempt = (maxAttempts - (attempt + 1)) + 1 := by omega
    rw [hn, rangeMapShift]
termination_by maxAttempts - attempt

/-- Helper: the retry wrapper always performs at least one call. -/
theorem callWithRetryFrom_calls_pos {ε α : Type} (attempts : Nat → Except ε α)
    (maxAttempts attempt : Nat) :
    1 ≤ (callWithRetryFrom attempts maxAttempts attempt).calls := by
  rcases hA : attempts attempt with e | v
  · by_cases hle : maxAttempts ≤ attempt
    · rw [callWithRetryFrom_eq_last attempts maxAttempts attempt e hA hle]
    · rw [callWithRetryFrom_eq_step attempts maxAttempts attempt e hA hle]
      exact Nat.succ_le_succ (Nat.zero_le _)
  · rw [callWithRetryFrom_eq_ok attempts maxAttempts attempt v hA]

/-- Helper: the retry wrapper never invokes the wrapped call more than
`maxAttempts - attempt + 1` times, and the sleeps performed are exactly
`2*attempt, 2*(attempt+1), ...`, one per retry (one fewer than the calls). -/
theorem callWithRetryFrom_bound {ε α : Type} (attempts : Nat → Except ε α)
    (maxAttempts attempt : Nat) :
    (callWithRetryFrom attempts maxAttempts attempt).calls ≤
        maxAttempts - attempt + 1 ∧
      (callWithRetryFrom attempts maxAttempts attempt).sleeps =
        (List.range ((callWithRetryFrom attempts maxAttempts attempt).calls - 1)).map
          (fun i => 2 * (attempt + i)) := by
  rcases hA : attempts attempt with e | v
  · by_cases hle : maxAttempts ≤ attempt
    · rw [callWithRetryFrom_eq_last attempts maxAttempts attempt e hA hle]
      exact ⟨by show (1 : Nat) ≤ maxAttempts - attempt + 1; omega, by simp⟩
    · obtain ⟨ihc, ihs⟩ := callWithRetryFrom_bound attempts maxAttempts (attempt + 1)
      have hpos := callWithRetryFrom_calls_pos attempts maxAttempts (attempt + 1)
      rw [callWithRetryFrom_eq_step attempts maxAttempts attempt e hA hle]
      refine ⟨?_, ?_⟩
      · show (callWithRetryFrom attempts maxAttempts (attempt + 1)).calls + 1 ≤
          maxAttempts - attempt + 1
        omega
      · show 2 * attempt :: (callWithRetryFrom attempts maxAttempts (attempt + 1)).sleeps =
          (List.range ((callWithRetryFrom attempts maxAttempts (attempt + 1)).calls + 1 - 1)).map
            (fun i => 2 * (attempt + i))
        rw [ihs]
        have hx : (callWithRetryFrom attempts maxAttempts (attempt + 1)).calls + 1 - 1 =
            ((callWithRetryFrom attempts maxAttempts (attempt + 1)).calls - 1) + 1 := by
          omega
        rw [hx, rangeMapShift]
  · rw [callWithRetryFrom_eq_ok attempts maxAttempts attempt v hA]
    exact ⟨by show (1 : Nat) ≤ maxAttempts - attempt + 1; omega, by simp⟩
termination_by maxAttempts - attempt

/-- Helper: the first `m < 5` linear back-off sleeps are a prefix of `[2, 4, 6, 8]`. -/
theorem rangeMapTake : ∀ m < 5, (List.range m).map (fun i => 2 * (1 + i)) = [2, 4, 6, 8].take m := by
  decide

/-- C5: for every logical model call through `_call_with_retry` (default
`max_attempts = 5`), the wrapped network function runs at most 5 times, the
sleeps between consecutive attempts are exactly the prefix `2, 4, 6, 8`
seconds matching the number of retries, and when all 5 attempts fail the
last exception (that of attempt 5) is re-raised. -/
theorem retry_bound_C5 {α : Type} (attempts : Nat → Except String α) :
    (callWithRetry attempts).calls ≤ 5 ∧
      (callWithRetry attempts).sleeps = [2, 4, 6, 8].take ((callWithRetry attempts).calls - 1) ∧
      ((∀ k, 1 ≤ k → k ≤ 5 → ∃ e, attempts k = Except.error e) →
        (callWithRetry attempts).result = attempts 5 ∧
          (callWithRetry attempts).calls = 5 ∧
          (callWithRetry attempts).sleeps = [2, 4, 6, 8]) := by
  obtain ⟨hc, hs⟩ := callWithRetryFrom_bound attempts 5 1
  have hc5 : (callWithRetryFrom attempts 5 1).calls ≤ 5 := by omega
  refine ⟨hc5, ?_, ?_⟩
  · rw [callWithRetry, hs]
    exact rangeMapTake _ (by omega)
  · intro hfail
    have h := callWithRetryFrom_allFail attempts 5 1 (by omega)
      (fun k hk1 hk2 => hfail k hk1 hk2)
    rw [callWithRetry, h]
    refine ⟨?_, ?_, ?_⟩
    · rfl
    · norm_num
    · show (List.range (5 - 1)).map (fun i => 2 * (1 + i)) = [2, 4, 6, 8]
      decide

/-- Witness for C5 at the always-failing call: 5 invocations, sleeps
`[2, 4, 6, 8]`, last exception re-raised. -/
theorem retry_bound_C5_witness :
    (callWithRetry (fun _ => (Except.error "boom" : Except String Unit))).calls = 5 ∧
      (callWithRetry (fun _ => (Except.error "boom" : Except String Unit))).sleeps =
        [2, 4, 6, 8] ∧
      (callWithRetry (fun _ => (Except.error "boom" : Except String Unit))).result =
        Except.error "boom" := by
  have h := retry_bound_C5 (fun _ => (Except.error "boom" : Except String Unit))
  have hfail := h.2.2 (fun k _ _ => ⟨"boom", rfl⟩)
  exact ⟨hfail.2.1, hfail.2.2, hfail.1⟩

/-- Helper: the final clamping steps of the limit computation force
`1 ≤ lower < upper` whatever came out of the earlier resolution. -/
theorem limits_clamp (upper1 lower1 : Int) :
    1 ≤ (if max lower1 1 ≥ max upper1 2 then max (max upper1 2 - 1) 1 else max lower1 1) ∧
      (if max lower1 1 ≥ max upper1 2 then max (max upper1 2 - 1) 1 else max lower1 1) <
        max upper1 2 := by
  simp only [max_def]
  split_ifs <;> omega

/-- C8: for every combination of `extra_config` overrides
(`final_answer_context_upper_limit`, `final_answer_context_lower_limit`,
`final_answer_context_threshold`), runtime-config overrides, and
absent / non-positive / non-numeric values, the limits stored by
`BaseStepAgent.__init__` satisfy `1 ≤ lower_limit < upper_limit`. -/
theorem context_limits_auto_repair_C8 (inp : LimitInputs) :
    1 ≤ (computeLimits inp).2 ∧ (computeLimits inp).2 < (computeLimits inp).1 := by
  unfold computeLimits
  dsimp only
  exact limits_clamp _ _

/-- C9: registering a producer under a live id fails with the
`already exists` error and leaves both registries unchanged; registering
under any id that is not live succeeds and appends exactly that producer to
the corresponding registry. -/
theorem merger_registration_C9 (st : MergerState) (f : Nat) (gid : String) :
    (st.live gid = true →
        addGenerator st f gid = (st, some ("Generator " ++ gid ++ " already exists")) ∧
          addAsyncGenerator st f gid =
            (st, some ("Generator " ++ gid ++ " already exists"))) ∧
      (st.live gid = false →
        addGenerator st f gid =
            ({ st with generators := st.generators ++ [(gid, f)] }, none) ∧
          addAsyncGenerator st f gid =
            ({ st with asyncGenerators := st.asyncGenerators ++ [(gid, f)] }, none)) := by
  constructor
  · intro h
    unfold addGenerator addAsyncGenerator
    simp [h]
  · intro h
    unfold addGenerator addAsyncGenerator
    simp [h]

/-- Witness for C9: with only `"a"` live, registering `"a"` fails and keeps
the registry intact, registering `"b"` appends exactly that producer. -/
theorem merger_registration_C9_witness :
    addGenerator ⟨[("a", 0)], [], []⟩ 7 "a" =
        (⟨[("a", 0)], [], []⟩, some "Generator a already exists") ∧
      addGenerator ⟨[("a", 0)], [], []⟩ 7 "b" =
        (⟨[("a", 0), ("b", 7)], [], []⟩, none) := by
  have h1 := merger_registration_C9 ⟨[("a", 0)], [], []⟩ 7 "a"
  have h2 := merger_registration_C9 ⟨[("a", 0)], [], []⟩ 7 "b"
  refine ⟨(h1.1 (by decide)).1, ?_⟩
  exact (h2.2 (by decide)).1

/-- Helper: writing a future and reading it back. -/
theorem lookupReq_setReq_self {α : Type} (rid : String) (fut : FutureState α) :
    ∀ l : List (String × FutureState α), lookupReq rid (setReq rid fut l) = some fut := by
  intro l
  induction l with
  | nil => simp [setReq, lookupReq]
  | cons p rest ih =>
    obtain ⟨k, v⟩ := p
    by_cases hk : k = rid
    · simp [setReq, lookupReq, hk]
    · simp [setReq, lookupReq, hk, ih]

/-- Helper: after the `finally` pop, the entry is gone. -/
theorem lookupReq_popReq_self {α : Type} (rid : String) :
    ∀ l : List (String × FutureState α), lookupReq rid (popReq rid l) = none := by
  intro l
  induction l with
  | nil => simp [popReq, lookupReq]
  | cons p rest ih =>
    obtain ⟨k, v⟩ := p
    by_cases hk : k = rid
    · simp [popReq, hk, ih]
    · simp [popReq, lookupReq, hk, ih]

/-- Helper: the future written by a successful `set_response` is done. -/
theorem newFutOf_done {α : Type} (data : α) (err : Option String) :
    (newFutOf data err).done = true := by
  rcases err with _ | e
  · rfl
  · by_cases he : e = ""
    · simp [newFutOf, he, FutureState.done]
    · simp [newFutOf, he, FutureState.done]

/-- Helper: `set_response` is a no-op when the id is unknown or the future
is already done. -/
theorem setResponse_noop {α : Type} (st : ChannelState α) (rid : String)
    (d : α) (e : Option String)
    (h : lookupReq rid st.pendingRequests = none ∨
      ∃ fut, lookupReq rid st.pendingRequests = some fut ∧ fut.done = true) :
    setResponse st rid d e = st := by
  rcases h with h | ⟨fut, hL, hd⟩
  · unfold setResponse
    rw [h]
  · unfold setResponse
    rw [hL]
    simp [hd]

/-- Helper: a second `set_response` on the same request id is a no-op. -/
theorem setResponse_double {α : Type} (st : ChannelState α) (rid : String)
    (d d' : α) (e e' : Option String) :
    setResponse (setResponse st rid d e) rid d' e' = setResponse st rid d e := by
  match hL : lookupReq rid st.pendingRequests with
  | none =>
    rw [setResponse_noop st rid d e (Or.inl hL),
      setResponse_noop st rid d' e' (Or.inl hL)]
  | some fut =>
    by_cases hd : fut.done
    · rw [setResponse_noop st rid d e (Or.inr ⟨fut, hL, hd⟩),
        setResponse_noop st rid d' e' (Or.inr ⟨fut, hL, hd⟩)]
    · have h1 : setResponse st rid d e =
          { st with pendingRequests := setReq rid (newFutOf d e) st.pendingRequests } := by
        unfold setResponse
        rw [hL]
        simp [hd]
      rw [h1]
      refine setResponse_noop _ rid d' e' (Or.inr ⟨newFutOf d e, ?_, newFutOf_done d e⟩)
      exact lookupReq_setReq_self rid (newFutOf d e) st.pendingRequests

/-- C4: channel one-shot semantics.  `set_response` on an unknown request
id is ignored; a second `set_response` on the same id is a no-op (so at
most one of result/error resolves the waiter, and a done future absorbs
both further `set_response` and cancellation); and for every run of
`send_request`, whichever of the four resolutions fires, the pending-table
entry of the request id is removed. -/
theorem channel_one_shot_C4 {α : Type} (st : ChannelState α) (rid : String)
    (d d' : α) (e e' : Option String) :
    (lookupReq rid st.pendingRequests = none → setResponse st rid d e = st) ∧
      setResponse (setResponse st rid d e) rid d' e' = setResponse st rid d e ∧
      (∀ fut, lookupReq rid st.pendingRequests = some fut → fut.done = true →
        setResponse st rid d e = st ∧ cancelFuture st rid = st) ∧
      (∀ (ridOpt : Option String) (ev : WaitEvent α),
        lookupReq (registerRequest st ridOpt).2
          (sendRequestRun st ridOpt ev).1.pendingRequests = none) := by
  refine ⟨?_, ?_, ?_, ?_⟩
  · intro h
    exact setResponse_noop st rid d e (Or.inl h)
  · exact setResponse_double st rid d d' e e'
  · intro fut hL hd
    refine ⟨setResponse_noop st rid d e (Or.inr ⟨fut, hL, hd⟩), ?_⟩
    unfold cancelFuture
    rw [hL]
    simp [hd]
  · intro ridOpt ev
    rcases ev with ⟨data, err⟩ | _ | _ | e0 <;>
      simp [sendRequestRun, lookupReq_popReq_self]

/-- Witness for C4: a concrete pending table exercising the unknown-id
no-op, the double-resolution no-op, the done-future absorption and the
no-leak property of a full `send_request` run. -/
theorem channel_one_shot_C4_witness :
    setResponse (⟨[("req_1", FutureState.pending)], 1⟩ : ChannelState Nat) "zzz" 5 none =
        ⟨[("req_1", FutureState.pending)], 1⟩ ∧
      setResponse (setResponse (⟨[("req_1", FutureState.pending)], 1⟩ : ChannelState Nat)
            "req_1" 5 none) "req_1" 6 none =
        setResponse (⟨[("req_1", FutureState.pending)], 1⟩ : ChannelState Nat) "req_1" 5 none ∧
      setResponse (⟨[("req_1", FutureState.resolved 7)], 1⟩ : ChannelState Nat) "req_1" 5 none =
        ⟨[("req_1", FutureState.resolved 7)], 1⟩ ∧
      lookupReq "req_1"
        (sendRequestRun (⟨[], 0⟩ : ChannelState Nat) (some "req_1")
          (WaitEvent.response 5 none)).1.pendingRequests = none := by
  have h1 := channel_one_shot_C4 (⟨[("req_1", FutureState.pending)], 1⟩ : ChannelState Nat)
    "zzz" 5 6 none none
  have h2 := channel_one_shot_C4 (⟨[("req_1", FutureState.pending)], 1⟩ : ChannelState Nat)
    "req_1" 5 6 none none
  have h3 := channel_one_shot_C4 (⟨[("req_1", FutureState.resolved 7)], 1⟩ : ChannelState Nat)
    "req_1" 5 6 none none
  have h4 := channel_one_shot_C4 (⟨[], 0⟩ : ChannelState Nat) "req_1" 5 6 none none
  refine ⟨h1.1 (by decide), h2.2.1, ?_, ?_⟩
  · exact ((h3.2.2.1) (FutureState.resolved 7) (by decide) (by decide)).1
  · exact h4.2.2.2 (some "req_1") (WaitEvent.response 5 none)

/-- Helper: reading the freshly appended cell. -/
theorem listGetD_append_length (l : List (List Msg)) (v : List Msg) :
    (l ++ [v]).getD l.length [] = v := by
  induction l with
  | nil => rfl
  | cons x xs ih => exact ih

/-- Helper: reading back an in-place update. -/
theorem listGetD_set_self (l : List (List Msg)) (a : Nat) (v : List Msg)
    (ha : a < l.length) : (l.set a v).getD a [] = v := by
  induction l generalizing a with
  | nil => simp at ha
  | cons x xs ih =>
    cases a with
    | zero => rfl
    | succ n => simpa using ih n (by simpa using ha)

/-- Helper: a session id just inserted at the end of the table resolves to
the inserted address. -/
theorem lookupSession_append_self (sid : String) (m : Nat) :
    ∀ table : List (String × Nat), lookupSession sid table = none →
      lookupSession sid (table ++ [(sid, m)]) = some m := by
  intro table
  induction table with
  | nil => simp [lookupSession]
  | cons p rest ih =>
    obtain ⟨k, v⟩ := p
    intro hnone
    rw [List.cons_append]
    simp only [lookupSession] at hnone ⊢
    by_cases hk : k = sid
    · rw [if_pos hk] at hnone
      exact absurd hnone (by simp)
    · rw [if_neg hk] at hnone ⊢
      exact ih hnone

/-- Helper: `save` does not change the log a `FileContext` holds. -/
theorem FileContext.log_save (fc : FileContext) : fc.save.log = fc.log := by
  simp [FileContext.save, FileContext.log]

/-- Helper: neither does `_schedule_write`. -/
theorem FileContext.log_scheduleWrite (fc : FileContext) :
    fc.scheduleWrite.log = fc.log := by
  unfold FileContext.scheduleWrite
  by_cases hb : fc.batchSize ≤ fc.pendingMessages.length
  · simp [hb, FileContext.log_save]
  · simp [hb]

/-- Helper: `add` appends exactly the given messages to the log. -/
theorem FileContext.log_add (fc : FileContext) (msgs : List Msg) :
    (fc.add msgs).log = fc.log ++ msgs := by
  unfold FileContext.add
  rw [FileContext.log_scheduleWrite]
  simp [FileContext.log, List.append_assoc]

/-- C6 counterexample: `SimpleContext.get_all` returns the stored list
object itself (address 0 here), so a caller-side mutation of the returned
list changes what a later `get_all` returns: with session `"s"` stored at
address 0 holding `["m1"]`, appending `"junk"` through the returned address
makes the next `get_all` read `["m1", "junk"]` — not the `["m1"]` a
snapshot copy would have preserved.  This refutes the claim that for both
context implementations caller mutation of the `get_all` result cannot
alter later `get_all` results. -/
theorem context_store_contract_C6_counterexample :
    SimpleContext.get_all ⟨"s"⟩ ⟨[("s", 0)]⟩ ⟨[["m1"]]⟩ = (⟨[["m1"]]⟩, 0) ∧
      Heap.set (⟨[["m1"]]⟩ : Heap) 0 (Heap.get ⟨[["m1"]]⟩ 0 ++ ["junk"]) =
        ⟨[["m1", "junk"]]⟩ ∧
      Heap.get ⟨[["m1", "junk"]]⟩
          (SimpleContext.get_all ⟨"s"⟩ ⟨[("s", 0)]⟩ ⟨[["m1", "junk"]]⟩).2 =
        ["m1", "junk"] ∧
      (["m1", "junk"] : List Msg) ≠ ["m1"] := by
  refine ⟨rfl, rfl, rfl, by decide⟩

/-- C6 (amended): `FileContext.get_all` returns a snapshot copy — a fresh
list object whose content is the full log, and whose content on any later
`get_all` call is again the full log whatever the caller did to previously
returned objects (the read is quantified over every heap); `FileContext`
reflects every prior `add` of the session in insertion order; but
`SimpleContext.get_all` returns the address of the live stored list object
itself, so caller mutation of it is visible to later calls. -/
theorem context_store_contract_C6 (fc : FileContext) (h : Heap)
    (batches : List (List Msg)) (ctx : SimpleContext) (st : SimpleContexts)
    (a : Nat) :
    (Heap.get (fc.get_all h).1 (fc.get_all h).2 = fc.log ∧
        (fc.get_all h).2 = h.cells.length) ∧
      (batches.foldl FileContext.add fc).log = fc.log ++ batches.flatten ∧
      (lookupSession ctx.sessionId st.table = some a →
        SimpleContext.get_all ctx st h = (h, a)) := by
  refine ⟨⟨?_, rfl⟩, ?_, ?_⟩
  · show Heap.get ⟨h.cells ++ [fc.messages ++ fc.pendingMessages]⟩ h.cells.length = fc.log
    exact listGetD_append_length h.cells _
  · induction batches generalizing fc with
    | nil => simp
    | cons b bs ih =>
      rw [List.foldl_cons, ih (fc.add b), FileContext.log_add]
      simp [List.append_assoc]
  · intro hL
    unfold SimpleContext.get_all
    rw [hL]

/-- Witness for C6 (amended) at a concrete store: session `"s"` at address
0, one pending batch, exercising the `some`-branch hypothesis. -/
theorem context_store_contract_C6_witness :
    Heap.get (FileContext.get_all ⟨["m0"], ["p0"], 5⟩ ⟨[]⟩).1
        (FileContext.get_all ⟨["m0"], ["p0"], 5⟩ ⟨[]⟩).2 = ["m0", "p0"] ∧
      ([["x"], ["y"]].foldl FileContext.add ⟨[], [], 5⟩).log = ["x", "y"] ∧
      SimpleContext.get_all ⟨"s"⟩ ⟨[("s", 0)]⟩ ⟨[["m1"]]⟩ = (⟨[["m1"]]⟩, 0) := by
  have ha := context_store_contract_C6 ⟨["m0"], ["p0"], 5⟩ ⟨[]⟩ [["x"], ["y"]]
    ⟨"s"⟩ ⟨[("s", 0)]⟩ 0
  have hb := context_store_contract_C6 ⟨[], [], 5⟩ ⟨[]⟩ [["x"], ["y"]]
    ⟨"s"⟩ ⟨[("s", 0)]⟩ 0
  have hc := context_store_contract_C6 ⟨[], [], 5⟩ ⟨[["m1"]]⟩ [["x"], ["y"]]
    ⟨"s"⟩ ⟨[("s", 0)]⟩ 0
  refine ⟨ha.1.1, ?_, hc.2.2 (by decide)⟩
  have h2 := hb.2.1
  simpa [FileContext.log] using h2

/-- C10: the in-memory store is keyed globally by session id.  For any two
`SimpleContext` instances over the same session id, a message list added
through one is visible in `get_all` of the other (they alias one
module-level dict of list objects), and the first `add` of a session stores
the caller's list object itself — the table records the caller's address
and the heap is untouched. -/
theorem simple_context_global_aliasing_C10 (c1 c2 : SimpleContext)
    (st : SimpleContexts) (h : Heap) (m : Nat)
    (hsid : c1.sessionId = c2.sessionId)
    (hwf : ∀ a, lookupSession c1.sessionId st.table = some a →
      a < h.cells.length) :
    (∀ x ∈ Heap.get h m,
        x ∈ Heap.get (c1.add st h m).2
          (SimpleContext.get_all c2 (c1.add st h m).1 (c1.add st h m).2).2) ∧
      (lookupSession c1.sessionId st.table = none →
        (c1.add st h m).1.table = st.table ++ [(c1.sessionId, m)] ∧
          (c1.add st h m).2 = h) := by
  constructor
  · intro x hx
    match hL : lookupSession c1.sessionId st.table with
    | some a =>
      have hadd : c1.add st h m = (st, h.set a (h.get a ++ h.get m)) := by
        unfold SimpleContext.add
        rw [hL]
      rw [hadd]
      have hL2 : lookupSession c2.sessionId st.table = some a := by
        rw [← hsid]; exact hL
      have hget : SimpleContext.get_all c2 st (h.set a (h.get a ++ h.get m)) =
          (h.set a (h.get a ++ h.get m), a) := by
        unfold SimpleContext.get_all
        rw [hL2]
      rw [hget]
      have hread : Heap.get (h.set a (h.get a ++ h.get m)) a =
          h.get a ++ h.get m :=
        listGetD_set_self h.cells a _ (hwf a hL)
      rw [hread]
      exact List.mem_append_right _ hx
    | none =>
      have hadd : c1.add st h m = (⟨st.table ++ [(c1.sessionId, m)]⟩, h) := by
        unfold SimpleContext.add
        rw [hL]
      rw [hadd]
      have hL2 : lookupSession c2.sessionId
          (st.table ++ [(c1.sessionId, m)]) = some m := by
        rw [← hsid]
        exact lookupSession_append_self c1.sessionId m st.table hL
      have hget : SimpleContext.get_all c2 ⟨st.table ++ [(c1.sessionId, m)]⟩ h =
          (h, m) := by
        unfold SimpleContext.get_all
        rw [hL2]
      rw [hget]
      exact hx
  · intro hL
    unfold SimpleContext.add
    rw [hL]
    exact ⟨rfl, rfl⟩

/-- Witness for C10: a fresh session `"s"`; adding the caller's list object
(address 0, holding `["hello"]`) through one instance makes `"hello"`
visible through the other instance, and the table records address 0
itself. -/
theorem simple_context_global_aliasing_C10_witness :
    ("hello" ∈ Heap.get ((SimpleContext.add ⟨"s"⟩ ⟨[]⟩ ⟨[["hello"]]⟩ 0).2)
        (SimpleContext.get_all ⟨"s"⟩ (SimpleContext.add ⟨"s"⟩ ⟨[]⟩ ⟨[["hello"]]⟩ 0).1
          (SimpleContext.add ⟨"s"⟩ ⟨[]⟩ ⟨[["hello"]]⟩ 0).2).2) ∧
      (SimpleContext.add ⟨"s"⟩ ⟨[]⟩ ⟨[["hello"]]⟩ 0).1.table = [("s", 0)] := by
  have h := simple_context_global_aliasing_C10 ⟨"s"⟩ ⟨"s"⟩ ⟨[]⟩ ⟨[["hello"]]⟩ 0
    rfl (fun a ha => by simp [lookupSession] at ha)
  refine ⟨h.1 "hello" (by decide), ?_⟩
  have h2 := (h.2 (by simp [lookupSession])).1
  simpa using h2

/-- Helper: on the malformed wrapper, `_compress_batch_search_in_content`
reports a change while the transformation is the identity. -/
theorem shrink_malformed_fixpoint :
    shrinkBatchSearchResults [malformedBatchMsg] = some [malformedBatchMsg] := by
  rfl

/-- Helper: the inner `while True` loop of `_handle_context_overflow` never
terminates on the malformed wrapper while the estimate stays at or above
the lower limit: `_shrink_batch_search_results` keeps returning `True`
without changing anything. -/
theorem overflowLoop_malformed_diverges (est : List ChatMessage → Nat)
    (searchPred : ToolCall → Bool) (lower : Nat)
    (hlo : lower ≤ est [malformedBatchMsg]) :
    ∀ fuel, overflowLoop est searchPred lower fuel [malformedBatchMsg] = none := by
  intro fuel
  induction fuel with
  | zero => rfl
  | succ n ih =>
    have hnlt : ¬ est [malformedBatchMsg] < lower := by omega
    simp only [overflowLoop, hnlt, if_false, shrink_malformed_fixpoint]
    exact ih

/-- C2 (the code at the failing input): with final-answer mode enabled and
a message list whose estimated token count is at or above both limits,
`_handle_context_overflow` does not terminate when a message content
contains `"<batch_search_results"` without the exact `<batch_search_results>`
wrapper tag: `_compress_batch_search_in_content` returns `changed = True`
while leaving the content unchanged, so no fuel bound makes the loop
finish — the claimed termination with an estimate strictly below the lower
limit fails. -/
theorem overflow_divergence_C2 (est : List ChatMessage → Nat)
    (searchPred : ToolCall → Bool) (cfg : OverflowConfig) (pi : Bool)
    (hen : cfg.forceFinalAnswerEnabled = true)
    (hup : cfg.upperLimit ≤ est [malformedBatchMsg])
    (hlo : cfg.lowerLimit ≤ est [malformedBatchMsg]) :
    ∀ fuel,
      handleContextOverflow est searchPred cfg pi fuel [malformedBatchMsg] = none := by
  intro fuel
  have hloop := overflowLoop_malformed_diverges est searchPred cfg.lowerLimit hlo fuel
  have hnup : ¬ est [malformedBatchMsg] < cfg.upperLimit := by omega
  unfold handleContextOverflow
  rw [hen]
  simp only [Bool.not_true, Bool.false_eq_true, if_false, hnup, hloop]

/-- Witness for C2 at a concrete configuration (upper 50, lower 40,
constant estimate 100): the overflow handler returns no result for any
fuel, here 1000 iterations. -/
theorem overflow_divergence_C2_witness :
    handleContextOverflow (fun _ => 100) (fun _ => false)
      ⟨true, 50, 40⟩ false 1000 [malformedBatchMsg] = none :=
  overflow_divergence_C2 (fun _ => 100) (fun _ => false) ⟨true, 50, 40⟩ false
    rfl (by decide) (by decide) 1000

/-- Helper: what a persisted message satisfies. -/
theorem persistOf_spec (r : AgentResponse) (m : ChatMessage)
    (h : persistOf r = some m) :
    r.message_type ≠ AgentMessageType.stream ∧ strTruthy m.role = true ∧
      r.message = some m := by
  obtain ⟨msg, mtype, status⟩ := r
  cases msg with
  | none => simp [persistOf] at h
  | some m0 =>
    by_cases hs : mtype = AgentMessageType.stream
    · simp [persistOf, hs] at h
    · by_cases hr : strTruthy m0.role
      · simp only [persistOf, hs, if_false, hr, if_true, Option.some.injEq] at h
        subst h
        exact ⟨hs, hr, rfl⟩
      · simp [persistOf, hs, hr] at h

/-- Helper: everything the response loop writes comes from the starting
context or from a response's persisted message. -/
theorem processResponses_mem (rs : List AgentResponse) :
    ∀ (ctx0 : List ChatMessage) (m : ChatMessage),
      m ∈ processResponses ctx0 rs →
        m ∈ ctx0 ∨ ∃ r ∈ rs, persistOf r = some m := by
  induction rs with
  | nil =>
    intro ctx0 m hm
    exact Or.inl hm
  | cons r rest ih =>
    intro ctx0 m hm
    unfold processResponses at hm
    rcases hP : persistOf r with _ | m'
    · rw [hP] at hm
      by_cases hs : r.status = "error"
      · rw [if_pos hs] at hm
        exact Or.inl hm
      · rw [if_neg hs] at hm
        rcases ih ctx0 m hm with h | ⟨r', hr', hpr⟩
        · exact Or.inl h
        · exact Or.inr ⟨r', List.mem_cons_of_mem r hr', hpr⟩
    · rw [hP] at hm
      by_cases hs : r.status = "error"
      · rw [if_pos hs] at hm
        rcases List.mem_append.mp hm with h | h
        · exact Or.inl h
        · rcases List.mem_singleton.mp h with rfl
          exact Or.inr ⟨r, List.mem_cons_self r rest, hP⟩
      · rw [if_neg hs] at hm
        rcases ih (ctx0 ++ [m']) m hm with h | ⟨r', hr', hpr⟩
        · rcases List.mem_append.mp h with h2 | h2
          · exact Or.inl h2
          · rcases List.mem_singleton.mp h2 with rfl
            exact Or.inr ⟨r, List.mem_cons_self r rest, hP⟩
        · exact Or.inr ⟨r', List.mem_cons_of_mem r hr', hpr⟩

/-- C7 counterexample: `_run` adds caller-supplied input messages to the
context store without role validation — a run whose input list holds a
message with no role persists it, contradicting the claim that only
messages carrying a valid non-empty role are persisted. -/
theorem persistence_discipline_C7_counterexample :
    runRound [] [noRoleMsg] [] = [noRoleMsg] ∧
      strTruthy noRoleMsg.role = false := by
  exact ⟨rfl, rfl⟩

/-- C7 (amended): STREAM responses are never persisted; every message in
the store after a round is either pre-existing context, a caller-supplied
input message (persisted without role validation), or the persisted message
of a non-STREAM response with a truthy role; and
`_prepare_messages_for_model` never changes the context store — in
particular the force-final-answer prompt it appends lives only in the model
input. -/
theorem persistence_discipline_C7 (est : List ChatMessage → Nat)
    (searchPred : ToolCall → Bool) (cfg : OverflowConfig)
    (promptText : List Char) (fuel : Nat) (st : AgentState)
    (ctx inputs : List ChatMessage) (responses : List AgentResponse) :
    (∀ r : AgentResponse, r.message_type = AgentMessageType.stream →
        persistOf r = none) ∧
      (∀ m ∈ runRound ctx inputs responses,
        m ∈ ctx ∨ m ∈ inputs ∨
          ∃ r ∈ responses, r.message_type ≠ AgentMessageType.stream ∧
            persistOf r = some m ∧ strTruthy m.role = true) ∧
      (prepareMessagesForModel est searchPred cfg promptText fuel st).2.context =
        st.context := by
  refine ⟨?_, ?_, ?_⟩
  · intro r h
    unfold persistOf
    match hmsg : r.message with
    | none => rfl
    | some m0 => simp [h]
  · intro m hm
    rcases processResponses_mem responses (ctx ++ inputs) m hm with h | ⟨r, hr, hp⟩
    · rcases List.mem_append.mp h with h2 | h2
      · exact Or.inl h2
      · exact Or.inr (Or.inl h2)
    · obtain ⟨hstream, hrole, _⟩ := persistOf_spec r m hp
      exact Or.inr (Or.inr ⟨r, hr, hstream, hp, hrole⟩)
  · unfold prepareMessagesForModel
    split
    · rfl
    · split
      · rfl
      · split <;> rfl

/-- Helper: what the index returned by the tool-result scan satisfies. -/
theorem findToolResultIdx_spec (tcId : String) :
    ∀ (l : List ChatMessage) (k : Nat), findToolResultIdx tcId l = some k →
      ∃ hk : k < l.length, isToolResultFor tcId (l.get ⟨k, hk⟩) = true := by
  intro l
  induction l with
  | nil => intro k h; simp [findToolResultIdx] at h
  | cons m rest ih =>
    intro k h
    unfold findToolResultIdx at h
    by_cases hm : isToolResultFor tcId m = true
    · rw [if_pos hm] at h
      obtain rfl : (0 : Nat) = k := by simpa using h
      exact ⟨by simp, hm⟩
    · rw [if_neg hm] at h
      rcases hrec : findToolResultIdx tcId rest with _ | k0
      · rw [hrec] at h
        simp at h
      · rw [hrec] at h
        simp only [Option.map_some', Option.some.injEq] at h
        obtain ⟨hk0, hmatch⟩ := ih k0 hrec
        subst h
        exact ⟨by simpa using Nat.succ_lt_succ hk0, hmatch⟩

/-- Helper: a matching tool result somewhere in the list makes the scan
find one. -/
theorem findToolResultIdx_exists (tcId : String) :
    ∀ (l : List ChatMessage) (j : Nat) (hj : j < l.length),
      isToolResultFor tcId (l.get ⟨j, hj⟩) = true →
      ∃ k, findToolResultIdx tcId l = some k := by
  intro l
  induction l with
  | nil => intro j hj; simp at hj
  | cons m rest ih =>
    intro j hj h
    by_cases hm : isToolResultFor tcId m = true
    · exact ⟨0, by simp [findToolResultIdx, hm]⟩
    · cases j with
      | zero => exact absurd h hm
      | succ j0 =>
        obtain ⟨k, hk⟩ := ih j0 (by simpa using hj) h
        exact ⟨k + 1, by simp [findToolResultIdx, hm, hk]⟩

/-- Helper: every survivor of an eviction step sits at a position outside
the dropped-index set. -/
theorem removeIndicesGo_mem (drop : List Nat) :
    ∀ (l : List ChatMessage) (i : Nat) (m : ChatMessage),
      m ∈ removeIndicesGo drop i l →
      ∃ (k : Nat) (hk : k < l.length), l.get ⟨k, hk⟩ = m ∧ (i + k) ∉ drop := by
  intro l
  induction l with
  | nil => intro i m hm; simp [removeIndicesGo] at hm
  | cons x rest ih =>
    intro i m hm
    unfold removeIndicesGo at hm
    by_cases hc : i ∈ drop
    · rw [if_pos hc] at hm
      obtain ⟨k, hk, hget, hnot⟩ := ih (i + 1) m hm
      refine ⟨k + 1, by simpa using Nat.succ_lt_succ hk, hget, ?_⟩
      have he : i + (k + 1) = i + 1 + k := by omega
      rw [he]
      exact hnot
    · rw [if_neg hc] at hm
      rcases List.mem_cons.mp hm with rfl | hm2
      · exact ⟨0, by simp, rfl, by simpa using hc⟩
      · obtain ⟨k, hk, hget, hnot⟩ := ih (i + 1) m hm2
        refine ⟨k + 1, by simpa using Nat.succ_lt_succ hk, hget, ?_⟩
        have he : i + (k + 1) = i + 1 + k := by omega
        rw [he]
        exact hnot

/-- C3 counterexample: the inner scan of `_drop_oldest_tool_cycle` `break`s
after the *first* matching tool result, so when two tool messages carry the
same `tool_call_id` the second survives the eviction as an orphan: evicting
the assistant message with call id `"a"` from
`[exAsstMsg, exToolMsg, exToolMsg]` drops only the assistant message and
the first result, leaving a message whose `tool_call_id` matches the
evicted call. -/
theorem tool_cycle_eviction_C3_counterexample :
    dropOldestToolCycle none [exAsstMsg, exToolMsg, exToolMsg] =
        some [exToolMsg] ∧
      isToolResultFor "a" exToolMsg = true ∧
      exAsstMsg.tool_calls.map (fun tc => tc.id) = [some "a"] := by
  exact ⟨rfl, rfl, rfl⟩

/-- C3 (amended): in an eviction step of `_drop_oldest_tool_cycle` on the
cycle found at `idx`, *provided* every matching tool result appears after
the tool-call message, at most one tool message carries each
`tool_call_id`, and the cycle's call ids are non-empty, every message whose
`tool_call_id` matches a call of the evicted assistant message has its
position in the dropped-index set — and hence no orphan tool result
survives in the returned list. -/
theorem tool_cycle_eviction_C3 (pred : Option (ToolCall → Bool))
    (msgs : List ChatMessage) (idx : Nat) (m : ChatMessage)
    (hfind : findCycle pred msgs = some (idx, m))
    (hids : ∀ tc ∈ m.tool_calls, tc.id ≠ some "")
    (hafter : ∀ (j : Nat) (hj : j < msgs.length), ∀ tc ∈ m.tool_calls,
      ∀ i : String, tc.id = some i →
        isToolResultFor i (msgs.get ⟨j, hj⟩) = true → idx < j)
    (huniq : ∀ (i : String) (j1 j2 : Nat) (h1 : j1 < msgs.length)
      (h2 : j2 < msgs.length), isToolResultFor i (msgs.get ⟨j1, h1⟩) = true →
      isToolResultFor i (msgs.get ⟨j2, h2⟩) = true → j1 = j2) :
    dropOldestToolCycle pred msgs =
        some (removeIndices msgs (dropIndicesFor msgs idx m.tool_calls)) ∧
      (∀ (j : Nat) (hj : j < msgs.length), ∀ tc ∈ m.tool_calls,
        ∀ i : String, tc.id = some i →
          isToolResultFor i (msgs.get ⟨j, hj⟩) = true →
            j ∈ dropIndicesFor msgs idx m.tool_calls) ∧
      (∀ m2 ∈ removeIndices msgs (dropIndicesFor msgs idx m.tool_calls),
        ∀ tc ∈ m.tool_calls, ∀ i : String, tc.id = some i →
          isToolResultFor i m2 = false) := by
  have key : ∀ (j : Nat) (hj : j < msgs.length), ∀ tc ∈ m.tool_calls,
      ∀ i : String, tc.id = some i →
        isToolResultFor i (msgs.get ⟨j, hj⟩) = true →
          j ∈ dropIndicesFor msgs idx m.tool_calls := by
    intro j hj tc htc i hid hres
    have hij : idx < j := hafter j hj tc htc i hid hres
    have hlen : j - (idx + 1) < (msgs.drop (idx + 1)).length := by
      rw [List.length_drop]
      omega
    have h2 : idx + 1 + (j - (idx + 1)) < msgs.length := by omega
    have e1 : (msgs.drop (idx + 1)).get ⟨j - (idx + 1), hlen⟩ =
        msgs.get ⟨idx + 1 + (j - (idx + 1)), h2⟩ := by
      rw [List.get_eq_getElem, List.get_eq_getElem, List.getElem_drop]
    have e2 : msgs.get ⟨idx + 1 + (j - (idx + 1)), h2⟩ = msgs.get ⟨j, hj⟩ := by
      congr 1
      simp only [Fin.mk.injEq]
      omega
    have hres2 : isToolResultFor i ((msgs.drop (idx + 1)).get
        ⟨j - (idx + 1), hlen⟩) = true := by
      rw [e1, e2]
      exact hres
    obtain ⟨k, hk⟩ := findToolResultIdx_exists i (msgs.drop (idx + 1))
      (j - (idx + 1)) hlen hres2
    obtain ⟨hklen, hkmatch⟩ := findToolResultIdx_spec i (msgs.drop (idx + 1)) k hk
    have h3 : idx + 1 + k < msgs.length := by
      rw [List.length_drop] at hklen
      omega
    have e3 : (msgs.drop (idx + 1)).get ⟨k, hklen⟩ =
        msgs.get ⟨idx + 1 + k, h3⟩ := by
      rw [List.get_eq_getElem, List.get_eq_getElem, List.getElem_drop]
    have hkmatch2 : isToolResultFor i (msgs.get ⟨idx + 1 + k, h3⟩) = true := by
      rw [← e3]
      exact hkmatch
    have hjk : idx + 1 + k = j := huniq i (idx + 1 + k) j h3 hj hkmatch2 hres
    unfold dropIndicesFor
    refine List.mem_cons_of_mem idx ?_
    refine List.mem_filterMap.mpr ⟨tc, htc, ?_⟩
    rw [hid]
    have hine : i != "" := by
      have := hids tc htc
      rw [hid] at this
      simpa using fun he => this (by rw [he])
    simp only [hine, if_true, hk, Option.map_some', Option.some.injEq]
    omega
  refine ⟨?_, key, ?_⟩
  · unfold dropOldestToolCycle
    rw [hfind]
  · intro m2 hm2 tc htc i hid
    obtain ⟨k, hk, hget, hnot⟩ :=
      removeIndicesGo_mem (dropIndicesFor msgs idx m.tool_calls) msgs 0 m2 hm2
    by_contra hcon
    have hres : isToolResultFor i (msgs.get ⟨k, hk⟩) = true := by
      rw [hget]
      simpa using hcon
    have := key k hk tc htc i hid hres
    have h0k : 0 + k = k := by omega
    rw [h0k] at hnot
    exact hnot this

/-- Witness for C3 (amended) on the well-formed two-message cycle
`[exAsstMsg, exToolMsg]`: the eviction drops both messages (no orphan) and
position 1 — the tool result of call `"a"` — is in the dropped set. -/
theorem tool_cycle_eviction_C3_witness :
    dropOldestToolCycle none [exAsstMsg, exToolMsg] = some [] ∧
      (1 : Nat) ∈ dropIndicesFor [exAsstMsg, exToolMsg] 0 exAsstMsg.tool_calls := by
  have h := tool_cycle_eviction_C3 none [exAsstMsg, exToolMsg] 0 exAsstMsg rfl
    (by
      intro tc htc
      rcases List.mem_singleton.mp htc with rfl
      decide)
    (by
      intro j hj tc htc i hid hres
      have hj2 : j < 2 := by simpa using hj
      interval_cases j
      · simp [List.get_cons_zero, isToolResultFor, exAsstMsg] at hres
      · omega)
    (by
      intro i j1 j2 h1 h2 hr1 hr2
      have h12 : j1 < 2 := by simpa using h1
      have h22 : j2 < 2 := by simpa using h2
      interval_cases j1 <;> interval_cases j2 <;>
        first
          | rfl
          | simp [List.get_cons_zero, isToolResultFor, exAsstMsg] at hr1 hr2)
  refine ⟨h.1.trans (by rfl), ?_⟩
  exact h.2.1 1 (by simp) ⟨some "a", ⟨some "t", some "{}"⟩⟩
    (List.mem_singleton.mpr rfl) "a" rfl rfl

/-- Helper: a dict write read back at the same key. -/
theorem objLookup_objSet_self (k : String) (v : JVal) :
    ∀ l : JObj, objLookup k (objSet k v l) = some v := by
  intro l
  induction l with
  | nil => simp [objSet, objLookup]
  | cons p rest ih =>
    obtain ⟨k0, v0⟩ := p
    by_cases hk : k0 = k
    · simp [objSet, objLookup, hk]
    · simp [objSet, objLookup, hk, ih]

/-- Helper: a dict write leaves other keys alone. -/
theorem objLookup_objSet_ne (k k2 : String) (v : JVal) (hne : k2 ≠ k) :
    ∀ l : JObj, objLookup k (objSet k2 v l) = objLookup k l := by
  intro l
  induction l with
  | nil => simp [objSet, objLookup, hne]
  | cons p rest ih =>
    obtain ⟨k0, v0⟩ := p
    by_cases hk : k0 = k2
    · subst hk
      simp [objSet, objLookup, hne]
    · simp [objSet, objLookup, hk, ih]

/-- Helper: a toolcall-dict write read back at the same key. -/
theorem tcLookup_tcSet_self (k : JKey) (v : JVal) :
    ∀ l : TcAcc, tcLookup k (tcSet k v l) = some v := by
  intro l
  induction l with
  | nil => simp [tcSet, tcLookup]
  | cons p rest ih =>
    obtain ⟨k0, v0⟩ := p
    by_cases hk : k0 = k
    · simp [tcSet, tcLookup, hk]
    · simp [tcSet, tcLookup, hk, ih]

/-- Helper: a toolcall-dict write leaves other keys alone. -/
theorem tcLookup_tcSet_ne (k k2 : JKey) (v : JVal) (hne : k2 ≠ k) :
    ∀ l : TcAcc, tcLookup k (tcSet k2 v l) = tcLookup k l := by
  intro l
  induction l with
  | nil => simp [tcSet, tcLookup, hne]
  | cons p rest ih =>
    obtain ⟨k0, v0⟩ := p
    by_cases hk : k0 = k2
    · subst hk
      simp [tcSet, tcLookup, hne]
    · simp [tcSet, tcLookup, hk, ih]

/-- Helper: one `mergeEntry` step either keeps the dict or writes the one
key it processes. -/
theorem mergeEntry_shape (fuel : Nat) (r : JObj) (k : String) (v : JVal)
    (r' : JObj) (h : mergeEntry fuel r k v = some r') :
    r' = r ∨ ∃ w, r' = objSet k w r := by
  match fuel with
  | 0 => simp [mergeEntry] at h
  | f + 1 =>
    unfold mergeEntry at h
    repeat' split at h
    all_goals
      first
        | (left; exact (Option.some.inj h).symm)
        | (right; exact ⟨_, (Option.some.inj h).symm⟩)
        | simp at h

/-- Helper: the accumulation loop leaves keys that `d2` does not hold
untouched. -/
theorem mergeEntries_notin (k : String) :
    ∀ (l : JObj) (fuel : Nat) (r r' : JObj),
      mergeEntries fuel r l = some r' → (∀ p ∈ l, p.1 ≠ k) →
      objLookup k r' = objLookup k r := by
  intro l
  induction l with
  | nil =>
    intro fuel r r' h _
    match fuel with
    | 0 => simp [mergeEntries] at h
    | f + 1 =>
      simp only [mergeEntries, Option.some.injEq] at h
      rw [← h]
  | cons p rest ih =>
    intro fuel r r' h hnk
    obtain ⟨k0, v0⟩ := p
    match fuel with
    | 0 => simp [mergeEntries] at h
    | f + 1 =>
      unfold mergeEntries at h
      rcases hme : mergeEntry f r k0 v0 with _ | rmid
      · rw [hme] at h
        simp at h
      · rw [hme] at h
        have h2 : mergeEntries f rmid rest = some r' := h
        have hne : k0 ≠ k := hnk (k0, v0) (List.mem_cons_self _ _)
        have hmid : objLookup k rmid = objLookup k r := by
          rcases mergeEntry_shape f r k0 v0 rmid hme with rfl | ⟨w, rfl⟩
          · rfl
          · exact objLookup_objSet_ne k k0 w hne r
        rw [ih f rmid r' h2 (fun p hp => hnk p (List.mem_cons_of_mem _ hp)), hmid]

/-- Helper: routing through the accumulation loop — the value at key `k`
of the final dict is produced by the single `mergeEntry` step for `k`,
applied to a dict whose `k` entry is still `d1`'s (the other steps touch
other keys only, by key uniqueness). -/
theorem mergeEntries_route (k : String) (v : JVal) (Inv Post : Option JVal → Prop)
    (hhead : ∀ (f : Nat) (r rmid : JObj), Inv (objLookup k r) →
      mergeEntry f r k v = some rmid → Post (objLookup k rmid)) :
    ∀ (l : JObj) (fuel : Nat) (r r' : JObj),
      mergeEntries fuel r l = some r' → (l.map Prod.fst).Nodup →
      Inv (objLookup k r) → objLookup k l = some v →
      Post (objLookup k r') := by
  intro l
  induction l with
  | nil =>
    intro fuel r r' _ _ _ hl
    simp [objLookup] at hl
  | cons p rest ih =>
    intro fuel r r' h hnodup hInv hl
    obtain ⟨k0, v0⟩ := p
    match fuel with
    | 0 => simp [mergeEntries] at h
    | f + 1 =>
      unfold mergeEntries at h
      rcases hme : mergeEntry f r k0 v0 with _ | rmid
      · rw [hme] at h
        simp at h
      · rw [hme] at h
        have h2 : mergeEntries f rmid rest = some r' := h
        rw [List.map_cons] at hnodup
        obtain ⟨hhd, htl⟩ := List.nodup_cons.mp hnodup
        by_cases hk0 : k0 = k
        · subst hk0
          simp only [objLookup, if_pos rfl] at hl
          obtain rfl : v0 = v := Option.some.inj hl
          have hrest : ∀ p ∈ rest, p.1 ≠ k0 := by
            intro p hp hpk
            have hm : p.1 ∈ rest.map Prod.fst := List.mem_map_of_mem Prod.fst hp
            rw [hpk] at hm
            exact hhd hm
          rw [mergeEntries_notin k0 rest f rmid r' h2 hrest]
          exact hhead f r rmid hInv hme
        · simp only [objLookup, if_neg hk0] at hl
          have hmid : objLookup k rmid = objLookup k r := by
            rcases mergeEntry_shape f r k0 v0 rmid hme with rfl | ⟨w, rfl⟩
            · rfl
            · exact objLookup_objSet_ne k k0 w hk0 r
          exact ih f rmid r' h2 htl (by rw [hmid]; exact hInv) hl

/-- Helper: the `mergeEntry` step on an ordinary string key concatenates. -/
theorem mergeEntry_concat_step (k : String) (r : JObj) (s1 s2 : String) (f : Nat)
    (h1 : k ≠ "index") (h2 : k ≠ "role") (h3 : k ≠ "id") (h4 : k ≠ "tool_calls")
    (h5 : k ≠ "type") (hr : objLookup k r = some (.str s1)) (hs2 : s2 ≠ "") :
    mergeEntry (f + 1) r k (.str s2) = some (objSet k (.str (s1 ++ s2)) r) := by
  unfold mergeEntry
  rw [hr]
  simp [h1, h2, h3, h4, h5, hs2]

/-- Helper: the `mergeEntry` step on `role`/`id` keeps the first truthy
value. -/
theorem mergeEntry_roleid_step (k : String) (r : JObj) (cur v : JVal) (f : Nat)
    (hk : k = "role" ∨ k = "id") (hr : objLookup k r = some cur) :
    mergeEntry (f + 1) r k v =
      some (if !cur.truthy && v.truthy then objSet k v r else r) := by
  unfold mergeEntry
  rw [hr]
  rcases hk with rfl | rfl
  · simp
  · simp

/-- Helper: the `mergeEntry` step on `type` overwrites with a truthy later
string. -/
theorem mergeEntry_type_step (r : JObj) (s1 s2 : String) (f : Nat)
    (hr : objLookup "type" r = some (.str s1)) (hs2 : s2 ≠ "") :
    mergeEntry (f + 1) r "type" (.str s2) = some (objSet "type" (.str s2) r) := by
  unfold mergeEntry
  rw [hr]
  simp [hs2]

/-- Helper: the `mergeEntry` step on two int values adds them. -/
theorem mergeEntry_int_step (k : String) (r : JObj) (a b : Int) (f : Nat)
    (h1 : k ≠ "index") (h2 : k ≠ "role") (h3 : k ≠ "id") (h4 : k ≠ "tool_calls")
    (hr : objLookup k r = some (.int a)) :
    mergeEntry (f + 1) r k (.int b) = some (objSet k (.int (a + b)) r) := by
  unfold mergeEntry
  rw [hr]
  simp [h1, h2, h3, h4]

/-- Helper: the `mergeEntry` step on `tool_calls` with two non-empty lists
is the base fill followed by the merging fill. -/
theorem mergeEntry_toolcalls_step (r : JObj) (l1 l2 : List JVal) (f : Nat)
    (base filled : TcAcc)
    (hr : objLookup "tool_calls" r = some (.list l1))
    (hl1 : l1.isEmpty = false) (hl2 : l2.isEmpty = false)
    (hbase : toolcallFillBaseGo [] l1 = some base)
    (hfill : toolcallFillMergeGo f base l2 = some filled) :
    mergeEntry (f + 1) r "tool_calls" (.list l2) =
      some (objSet "tool_calls" (.list (filled.map Prod.snd)) r) := by
  unfold mergeEntry
  rw [hr]
  simp [toolcallBase, JVal.truthy, hl1, hbase, hl2, hfill]

/-- Helper: a list none of whose items registers index `i` has no entry
with index `i`. -/
theorem entryWithIndex_none (i : JKey) :
    ∀ l : List JVal, (∀ y ∈ l, indexKeyOf y ≠ some i) →
      entryWithIndex i l = none := by
  intro l
  induction l with
  | nil => intro _; rfl
  | cons x xs ih =>
    intro h
    have htl : ∀ y ∈ xs, indexKeyOf y ≠ some i :=
      fun y hy => h y (List.mem_cons_of_mem _ hy)
    match x with
    | .obj xd =>
      show (if indexKeyOf (.obj xd) = some i then some xd
            else entryWithIndex i xs) = none
      rw [if_neg (h (.obj xd) (List.mem_cons_self _ _))]
      exact ih htl
    | .str s => exact ih htl
    | .int n => exact ih htl
    | .null => exact ih htl
    | .list ll => exact ih htl

/-- Helper: the base fill registers every item of `l1` under its index
key; with pairwise-distinct indices the entry under `i` is exactly the
item of `l1` carrying index `i`. -/
theorem toolcallFillBase_by_index (i : JKey) :
    ∀ (l : List JVal) (acc acc2 : TcAcc),
      toolcallFillBaseGo acc l = some acc2 →
      List.Pairwise (fun x y => indexKeyOf x ≠ indexKeyOf y) l →
      (entryWithIndex i l = none → tcLookup i acc2 = tcLookup i acc) ∧
      (∀ xd, entryWithIndex i l = some xd → tcLookup i acc2 = some (.obj xd)) := by
  intro l
  induction l with
  | nil =>
    intro acc acc2 h _
    have h2 : some acc = some acc2 := h
    obtain rfl := Option.some.inj h2
    exact ⟨fun _ => rfl, fun xd hxd => Option.noConfusion hxd⟩
  | cons x xs ih =>
    intro acc acc2 h hpw
    obtain ⟨hhd, htl⟩ := List.pairwise_cons.mp hpw
    match x with
    | .obj xd0 =>
      rcases hidx : objLookup "index" xd0 with _ | idxv
      · rw [toolcallFillBaseGo, hidx] at h
        exact Option.noConfusion h
      · rw [toolcallFillBaseGo, hidx] at h
        have h2 : (match idxv.toKey with
            | some key => toolcallFillBaseGo (tcSet key (.obj xd0) acc) xs
            | none => none) = some acc2 := h
        rcases hkey : idxv.toKey with _ | key
        · rw [hkey] at h2
          exact Option.noConfusion h2
        · rw [hkey] at h2
          have h3 : toolcallFillBaseGo (tcSet key (.obj xd0) acc) xs = some acc2 := h2
          have hik : indexKeyOf (.obj xd0) = some key := by
            simp [indexKeyOf, hidx, hkey]
          by_cases hki : key = i
          · subst hki
            have hnone : entryWithIndex key xs = none := by
              refine entryWithIndex_none key xs (fun y hy hyk => ?_)
              exact hhd y hy (by rw [hik, hyk])
            have hE : entryWithIndex key (JVal.obj xd0 :: xs) = some xd0 := by
              show (if indexKeyOf (.obj xd0) = some key then some xd0
                    else entryWithIndex key xs) = some xd0
              rw [if_pos hik]
            obtain ⟨ih1, _⟩ := ih (tcSet key (.obj xd0) acc) acc2 h3 htl
            have hacc2 : tcLookup key acc2 = some (.obj xd0) := by
              rw [ih1 hnone, tcLookup_tcSet_self]
            refine ⟨fun hcontra => ?_, fun xd hxd => ?_⟩
            · rw [hE] at hcontra
              exact Option.noConfusion hcontra
            · rw [hE] at hxd
              obtain rfl := Option.some.inj hxd
              exact hacc2
          · have hE : entryWithIndex i (JVal.obj xd0 :: xs) = entryWithIndex i xs := by
              show (if indexKeyOf (.obj xd0) = some i then some xd0
                    else entryWithIndex i xs) = entryWithIndex i xs
              rw [if_neg (by rw [hik]; exact fun hc => hki (Option.some.inj hc))]
            have hset : tcLookup i (tcSet key (.obj xd0) acc) = tcLookup i acc :=
              tcLookup_tcSet_ne i key (.obj xd0) hki acc
            obtain ⟨ih1, ih2⟩ := ih (tcSet key (.obj xd0) acc) acc2 h3 htl
            refine ⟨fun hn => ?_, fun xd hxd => ?_⟩
            · rw [hE] at hn
              rw [ih1 hn, hset]
            · rw [hE] at hxd
              exact ih2 xd hxd
    | .str s => exact Option.noConfusion h
    | .int n => exact Option.noConfusion h
    | .null => exact Option.noConfusion h
    | .list ll => exact Option.noConfusion h

/-- Helper: the merging fill processes every delta item at its index key —
an index absent from the delta is untouched; an index present in the
delta is inserted fresh when new, or dict-merged with the stored entry. -/
theorem toolcallFillMerge_by_index (i : JKey) :
    ∀ (l : List JVal) (fuel : Nat) (acc acc2 : TcAcc),
      toolcallFillMergeGo fuel acc l = some acc2 →
      List.Pairwise (fun x y => indexKeyOf x ≠ indexKeyOf y) l →
      (entryWithIndex i l = none → tcLookup i acc2 = tcLookup i acc) ∧
      (∀ xd, entryWithIndex i l = some xd →
        (tcLookup i acc = none → tcLookup i acc2 = some (.obj xd)) ∧
        (∀ sd, tcLookup i acc = some (.obj sd) →
          ∃ f2 m, mergeDicts f2 sd xd = some m ∧
            tcLookup i acc2 = some (.obj m))) := by
  intro l
  induction l with
  | nil =>
    intro fuel acc acc2 h _
    match fuel with
    | 0 => exact Option.noConfusion h
    | f + 1 =>
      have h2 : some acc = some acc2 := h
      obtain rfl := Option.some.inj h2
      exact ⟨fun _ => rfl, fun xd hxd => Option.noConfusion hxd⟩
  | cons x xs ih =>
    intro fuel acc acc2 h hpw
    obtain ⟨hhd, htl⟩ := List.pairwise_cons.mp hpw
    match fuel with
    | 0 => exact Option.noConfusion h
    | f + 1 =>
      rw [toolcallFillMergeGo] at h
      rcases hst : toolcallStep f acc x with _ | accMid
      · rw [hst] at h
        exact Option.noConfusion h
      · rw [hst] at h
        have h2 : toolcallFillMergeGo f accMid xs = some acc2 := h
        match f with
        | 0 => exact Option.noConfusion hst
        | f2 + 1 =>
          match x with
          | .obj xd0 =>
            have hstA : (match objLookup "index" xd0 with
                | some idxv =>
                  (match idxv.toKey with
                    | some key =>
                      (match tcLookup key acc with
                        | some stored =>
                          (match stored with
                            | JVal.obj sd =>
                              (match mergeDicts f2 sd xd0 with
                                | some m => some (tcSet key (JVal.obj m) acc)
                                | none => none)
                            | _ => none)
                        | none => some (tcSet key (JVal.obj xd0) acc))
                    | none => none)
                | none => none) = some accMid := hst
            rcases hidx : objLookup "index" xd0 with _ | idxv
            · rw [hidx] at hstA
              exact Option.noConfusion hstA
            · rw [hidx] at hstA
              have hstB : (match idxv.toKey with
                  | some key =>
                    (match tcLookup key acc with
                      | some stored =>
                        (match stored with
                          | JVal.obj sd =>
                            (match mergeDicts f2 sd xd0 with
                              | some m => some (tcSet key (JVal.obj m) acc)
                              | none => none)
                          | _ => none)
                      | none => some (tcSet key (JVal.obj xd0) acc))
                  | none => none) = some accMid := hstA
              rcases hkey : idxv.toKey with _ | key
              · rw [hkey] at hstB
                exact Option.noConfusion hstB
              · rw [hkey] at hstB
                have hst3 : (match tcLookup key acc with
                    | some stored =>
                      (match stored with
                        | JVal.obj sd =>
                          (match mergeDicts f2 sd xd0 with
                            | some m => some (tcSet key (JVal.obj m) acc)
                            | none => none)
                        | _ => none)
                    | none => some (tcSet key (JVal.obj xd0) acc)) =
                      some accMid := hstB
                have hik : indexKeyOf (.obj xd0) = some key := by
                  simp [indexKeyOf, hidx, hkey]
                by_cases hki : key = i
                · subst hki
                  have hnone : entryWithIndex key xs = none :=
                    entryWithIndex_none key xs
                      (fun y hy hyk => hhd y hy (by rw [hik, hyk]))
                  have hE : entryWithIndex key (JVal.obj xd0 :: xs) = some xd0 := by
                    show (if indexKeyOf (.obj xd0) = some key then some xd0
                          else entryWithIndex key xs) = some xd0
                    rw [if_pos hik]
                  obtain ⟨ih1, _⟩ := ih (f2 + 1) accMid acc2 h2 htl
                  have hmidlook : tcLookup key acc2 = tcLookup key accMid :=
                    ih1 hnone
                  refine ⟨fun hc => ?_, fun xd hxd => ?_⟩
                  · rw [hE] at hc
                    exact Option.noConfusion hc
                  · rw [hE] at hxd
                    obtain rfl := Option.some.inj hxd
                    constructor
                    · intro hn
                      rw [hn] at hst3
                      have h5 : some (tcSet key (JVal.obj xd0) acc) =
                          some accMid := hst3
                      obtain rfl := Option.some.inj h5
                      rw [hmidlook, tcLookup_tcSet_self]
                    · intro sd hsd
                      rw [hsd] at hst3
                      have hst4 : (match mergeDicts f2 sd xd0 with
                          | some m => some (tcSet key (JVal.obj m) acc)
                          | none => none) = some accMid := hst3
                      rcases hm : mergeDicts f2 sd xd0 with _ | m
                      · rw [hm] at hst4
                        exact Option.noConfusion hst4
                      · rw [hm] at hst4
                        obtain rfl := Option.some.inj hst4
                        refine ⟨f2, m, hm, ?_⟩
                        rw [hmidlook, tcLookup_tcSet_self]
                · have hE : entryWithIndex i (JVal.obj xd0 :: xs) =
                      entryWithIndex i xs := by
                    show (if indexKeyOf (.obj xd0) = some i then some xd0
                          else entryWithIndex i xs) = entryWithIndex i xs
                    rw [if_neg (by
                      rw [hik]
                      exact fun hc => hki (Option.some.inj hc))]
                  have hmid : tcLookup i accMid = tcLookup i acc := by
                    rcases hlk : tcLookup key acc with _ | stored
                    · rw [hlk] at hst3
                      have h5 : some (tcSet key (JVal.obj xd0) acc) =
                          some accMid := hst3
                      obtain rfl := Option.some.inj h5
                      exact tcLookup_tcSet_ne i key (JVal.obj xd0) hki acc
                    · rw [hlk] at hst3
                      cases stored with
                      | obj sd =>
                        have hst4 : (match mergeDicts f2 sd xd0 with
                            | some m => some (tcSet key (JVal.obj m) acc)
                            | none => none) = some accMid := hst3
                        rcases hm : mergeDicts f2 sd xd0 with _ | m
                        · rw [hm] at hst4
                          exact Option.noConfusion hst4
                        · rw [hm] at hst4
                          obtain rfl := Option.some.inj hst4
                          exact tcLookup_tcSet_ne i key (JVal.obj m) hki acc
                      | str s => exact Option.noConfusion hst3
                      | int n => exact Option.noConfusion hst3
                      | null => exact Option.noConfusion hst3
                      | list ll => exact Option.noConfusion hst3
                  obtain ⟨ih1, ih2⟩ := ih (f2 + 1) accMid acc2 h2 htl
                  refine ⟨fun hn => ?_, fun xd hxd => ?_⟩
                  · rw [hE] at hn
                    rw [ih1 hn, hmid]
                  · rw [hE] at hxd
                    obtain ⟨j1, j2⟩ := ih2 xd hxd
                    refine ⟨fun hn => ?_, fun sd hsd => ?_⟩
                    · exact j1 (by rw [hmid, hn])
                    · exact j2 sd (by rw [hmid, hsd])
          | .str s => exact Option.noConfusion hst
          | .int n => exact Option.noConfusion hst
          | .null => exact Option.noConfusion hst
          | .list ll => exact Option.noConfusion hst

/-- Helper: one step of the post-processing loop — the key is kept in
place, the tail is post-processed, and a non-list value is carried over
unchanged. -/
theorem postProcessEntries_cons (k0 : String) (v0 : JVal) (rest r : JObj)
    (h : postProcessEntries ((k0, v0) :: rest) = some r) :
    ∃ v2 rest2, postProcessEntries rest = some rest2 ∧ r = (k0, v2) :: rest2 ∧
      (v0.isList = false → v2 = v0) := by
  cases v0 with
  | list items =>
    have h1 : (match
        (match postLoop [] JVal.null JVal.null items with
          | some items2 => some (JVal.list items2)
          | none => none) with
      | none => none
      | some v2 =>
        (match postProcessEntries rest with
          | some rest2 => some ((k0, v2) :: rest2)
          | none => none)) = some r := h
    rcases hpl : postLoop [] JVal.null JVal.null items with _ | items2
    · rw [hpl] at h1
      exact Option.noConfusion h1
    · rw [hpl] at h1
      have h2 : (match postProcessEntries rest with
          | some rest2 => some ((k0, JVal.list items2) :: rest2)
          | none => none) = some r := h1
      rcases hrest : postProcessEntries rest with _ | rest2
      · rw [hrest] at h2
        exact Option.noConfusion h2
      · rw [hrest] at h2
        refine ⟨.list items2, rest2, rfl, (Option.some.inj h2).symm, fun hf => ?_⟩
        simp [JVal.isList] at hf
  | str s =>
    have h1 : (match postProcessEntries rest with
        | some rest2 => some ((k0, JVal.str s) :: rest2)
        | none => none) = some r := h
    rcases hrest : postProcessEntries rest with _ | rest2
    · rw [hrest] at h1
      exact Option.noConfusion h1
    · rw [hrest] at h1
      exact ⟨.str s, rest2, rfl, (Option.some.inj h1).symm, fun _ => rfl⟩
  | int n =>
    have h1 : (match postProcessEntries rest with
        | some rest2 => some ((k0, JVal.int n) :: rest2)
        | none => none) = some r := h
    rcases hrest : postProcessEntries rest with _ | rest2
    · rw [hrest] at h1
      exact Option.noConfusion h1
    · rw [hrest] at h1
      exact ⟨.int n, rest2, rfl, (Option.some.inj h1).symm, fun _ => rfl⟩
  | null =>
    have h1 : (match postProcessEntries rest with
        | some rest2 => some ((k0, JVal.null) :: rest2)
        | none => none) = some r := h
    rcases hrest : postProcessEntries rest with _ | rest2
    · rw [hrest] at h1
      exact Option.noConfusion h1
    · rw [hrest] at h1
      exact ⟨.null, rest2, rfl, (Option.some.inj h1).symm, fun _ => rfl⟩
  | obj o =>
    have h1 : (match postProcessEntries rest with
        | some rest2 => some ((k0, JVal.obj o) :: rest2)
        | none => none) = some r := h
    rcases hrest : postProcessEntries rest with _ | rest2
    · rw [hrest] at h1
      exact Option.noConfusion h1
    · rw [hrest] at h1
      exact ⟨.obj o, rest2, rfl, (Option.some.inj h1).symm, fun _ => rfl⟩

/-- Helper: the post-processing loop leaves non-list values untouched. -/
theorem postProcessEntries_preserve (k : String) :
    ∀ (d r : JObj), postProcessEntries d = some r →
      ∀ vv : JVal, objLookup k d = some vv → vv.isList = false →
        objLookup k r = some vv := by
  intro d
  induction d with
  | nil =>
    intro r _ vv hl
    exact absurd hl (by simp [objLookup])
  | cons p rest ih =>
    intro r h vv hl hnl
    obtain ⟨k0, v0⟩ := p
    obtain ⟨v2, rest2, hrest, rfl, hcarry⟩ :=
      postProcessEntries_cons k0 v0 rest r h
    by_cases hk0 : k0 = k
    · rw [objLookup, if_pos hk0] at hl
      obtain rfl := Option.some.inj hl
      rw [objLookup, if_pos hk0, hcarry hnl]
    · rw [objLookup, if_neg hk0] at hl
      rw [objLookup, if_neg hk0]
      exact ih rest2 hrest vv hl hnl

/-- Helper: a successful `mergeDicts` is the accumulation loop followed by
the post-processing loop. -/
theorem mergeDicts_decomp (f : Nat) (d1 d2 out : JObj)
    (h : mergeDicts (f + 1) d1 d2 = some out) :
    ∃ E, mergeEntries f d1 d2 = some E ∧ postProcessEntries E = some out := by
  unfold mergeDicts at h
  rcases hE : mergeEntries f d1 d2 with _ | E
  · rw [hE] at h
    exact Option.noConfusion h
  · rw [hE] at h
    exact ⟨E, rfl, h⟩

/-- **C1** (corrected). Streaming delta accumulation, per-key merge rules
of `merge_delta_message`: over the accumulation loop (`mergeEntries`,
embedded from the first loop of `merge_delta_message` in
`cortex/model/utils.py`) with pairwise-distinct delta keys, (a) an
ordinary string field present in both dicts is concatenated in order;
(b) `role`/`id` keep the first truthy value; (c) `type` is overwritten by
a truthy later string rather than concatenated; (d) integer fields are
summed; (e) `tool_calls` lists are merged by their `index` field — the
accumulated list is registered by index, then every delta entry is
inserted at a fresh index or dict-merged into the stored entry of the
same index; (f) the full `mergeDicts` is this loop followed by the list
post-processing loop, which leaves every non-list field unchanged.  The
claim's further assertion that the result is the *lossless* merge is
refuted by the counterexample theorem: the post-processing loop drops
list items lacking a `"type"` key. -/
theorem merge_delta_message_C1 (d1 d2 E : JObj) (fuel : Nat)
    (hE : mergeEntries fuel d1 d2 = some E)
    (hnodup : (d2.map Prod.fst).Nodup) :
    (∀ k s1 s2 : String, k ≠ "index" → k ≠ "role" → k ≠ "id" →
      k ≠ "tool_calls" → k ≠ "type" →
      objLookup k d1 = some (.str s1) → objLookup k d2 = some (.str s2) →
      s2 ≠ "" → objLookup k E = some (.str (s1 ++ s2))) ∧
    (∀ (k : String) (cur v : JVal), (k = "role" ∨ k = "id") →
      objLookup k d1 = some cur → objLookup k d2 = some v →
      objLookup k E = some (if !cur.truthy && v.truthy then v else cur)) ∧
    (∀ s1 s2 : String, objLookup "type" d1 = some (.str s1) →
      objLookup "type" d2 = some (.str s2) → s2 ≠ "" →
      objLookup "type" E = some (.str s2)) ∧
    (∀ (k : String) (a b : Int), k ≠ "index" → k ≠ "role" → k ≠ "id" →
      k ≠ "tool_calls" →
      objLookup k d1 = some (.int a) → objLookup k d2 = some (.int b) →
      objLookup k E = some (.int (a + b))) ∧
    (∀ l1 l2 : List JVal,
      objLookup "tool_calls" d1 = some (.list l1) →
      objLookup "tool_calls" d2 = some (.list l2) →
      l1.isEmpty = false → l2.isEmpty = false →
      List.Pairwise (fun x y => indexKeyOf x ≠ indexKeyOf y) l1 →
      List.Pairwise (fun x y => indexKeyOf x ≠ indexKeyOf y) l2 →
      ∃ base filled : TcAcc,
        toolcallFillBaseGo [] l1 = some base ∧
        (∃ f3, toolcallFillMergeGo f3 base l2 = some filled) ∧
        objLookup "tool_calls" E = some (.list (filled.map Prod.snd)) ∧
        (∀ i : JKey,
          (entryWithIndex i l1 = none → tcLookup i base = none) ∧
          (∀ xd, entryWithIndex i l1 = some xd →
            tcLookup i base = some (.obj xd))) ∧
        (∀ i : JKey,
          (entryWithIndex i l2 = none → tcLookup i filled = tcLookup i base) ∧
          (∀ xd, entryWithIndex i l2 = some xd →
            (tcLookup i base = none → tcLookup i filled = some (.obj xd)) ∧
            (∀ sd, tcLookup i base = some (.obj sd) →
              ∃ f2 m, mergeDicts f2 sd xd = some m ∧
                tcLookup i filled = some (.obj m))))) ∧
    (∀ out : JObj, mergeDicts (fuel + 1) d1 d2 = some out →
      postProcessEntries E = some out ∧
      ∀ (k : String) (vv : JVal), objLookup k E = some vv →
        vv.isList = false → objLookup k out = some vv) := by
  refine ⟨?_, ?_, ?_, ?_, ?_, ?_⟩
  · intro k s1 s2 h1 h2 h3 h4 h5 hd1 hd2 hs2
    refine mergeEntries_route k (.str s2)
      (fun o => o = some (.str s1)) (fun o => o = some (.str (s1 ++ s2)))
      ?_ d2 fuel d1 E hE hnodup hd1 hd2
    intro f r rmid hinv hme
    match f with
    | 0 => exact Option.noConfusion hme
    | fh + 1 =>
      rw [mergeEntry_concat_step k r s1 s2 fh h1 h2 h3 h4 h5 hinv hs2] at hme
      obtain rfl := Option.some.inj hme
      exact objLookup_objSet_self k (.str (s1 ++ s2)) r
  · intro k cur v hk hd1 hd2
    refine mergeEntries_route k v (fun o => o = some cur)
      (fun o => o = some (if !cur.truthy && v.truthy then v else cur))
      ?_ d2 fuel d1 E hE hnodup hd1 hd2
    intro f r rmid hinv hme
    match f with
    | 0 => exact Option.noConfusion hme
    | fh + 1 =>
      rw [mergeEntry_roleid_step k r cur v fh hk hinv] at hme
      obtain rfl := Option.some.inj hme
      by_cases hc : (!cur.truthy && v.truthy) = true
      · simp only [if_pos hc]
        exact objLookup_objSet_self k v r
      · simp only [if_neg hc]
        exact hinv
  · intro s1 s2 hd1 hd2 hs2
    refine mergeEntries_route "type" (.str s2)
      (fun o => o = some (.str s1)) (fun o => o = some (.str s2))
      ?_ d2 fuel d1 E hE hnodup hd1 hd2
    intro f r rmid hinv hme
    match f with
    | 0 => exact Option.noConfusion hme
    | fh + 1 =>
      rw [mergeEntry_type_step r s1 s2 fh hinv hs2] at hme
      obtain rfl := Option.some.inj hme
      exact objLookup_objSet_self "type" (.str s2) r
  · intro k a b h1 h2 h3 h4 hd1 hd2
    refine mergeEntries_route k (.int b)
      (fun o => o = some (.int a)) (fun o => o = some (.int (a + b)))
      ?_ d2 fuel d1 E hE hnodup hd1 hd2
    intro f r rmid hinv hme
    match f with
    | 0 => exact Option.noConfusion hme
    | fh + 1 =>
      rw [mergeEntry_int_step k r a b fh h1 h2 h3 h4 hinv] at hme
      obtain rfl := Option.some.inj hme
      exact objLookup_objSet_self k (.int (a + b)) r
  · intro l1 l2 hd1 hd2 hl1 hl2 hpw1 hpw2
    have hroute := mergeEntries_route "tool_calls" (.list l2)
      (fun o => o = some (.list l1))
      (fun o => ∃ base filled : TcAcc,
        toolcallFillBaseGo [] l1 = some base ∧
        (∃ f3, toolcallFillMergeGo f3 base l2 = some filled) ∧
        o = some (.list (filled.map Prod.snd)))
      ?_ d2 fuel d1 E hE hnodup hd1 hd2
    · obtain ⟨base, filled, hfb, ⟨f3, hfm⟩, hEq⟩ := hroute
      refine ⟨base, filled, hfb, ⟨f3, hfm⟩, hEq, fun i => ?_, fun i => ?_⟩
      · exact toolcallFillBase_by_index i l1 [] base hfb hpw1
      · exact toolcallFillMerge_by_index i l2 f3 base filled hfm hpw2
    · intro f r rmid hinv hme
      match f with
      | 0 => exact Option.noConfusion hme
      | fh + 1 =>
        rw [mergeEntry] at hme
        rw [hinv] at hme
        have hme2 : (match toolcallBase (JVal.list l1) with
            | none => none
            | some base =>
              (match (if !l2.isEmpty then toolcallFillMergeGo fh base l2
                      else some base) with
                | none => none
                | some filled =>
                  some (objSet "tool_calls"
                    (JVal.list (filled.map Prod.snd)) r))) =
            some rmid := hme
        have hbaseEq : toolcallBase (JVal.list l1) = toolcallFillBaseGo [] l1 := by
          simp [toolcallBase, JVal.truthy, hl1]
        rw [hbaseEq] at hme2
        rcases hfb : toolcallFillBaseGo [] l1 with _ | base
        · rw [hfb] at hme2
          exact Option.noConfusion hme2
        · rw [hfb] at hme2
          have hme3 : (match (if !l2.isEmpty then toolcallFillMergeGo fh base l2
                  else some base) with
              | none => none
              | some filled =>
                some (objSet "tool_calls" (JVal.list (filled.map Prod.snd)) r)) =
              some rmid := hme2
          rw [hl2] at hme3
          have hme4 : (match toolcallFillMergeGo fh base l2 with
              | none => none
              | some filled =>
                some (objSet "tool_calls" (JVal.list (filled.map Prod.snd)) r)) =
              some rmid := hme3
          rcases hfm : toolcallFillMergeGo fh base l2 with _ | filled
          · rw [hfm] at hme4
            exact Option.noConfusion hme4
          · rw [hfm] at hme4
            obtain rfl := Option.some.inj hme4
            exact ⟨base, filled, rfl, ⟨fh, hfm⟩,
              objLookup_objSet_self "tool_calls"
                (JVal.list (filled.map Prod.snd)) r⟩
  · intro out hout
    obtain ⟨E2, hE2, hpp⟩ := mergeDicts_decomp fuel d1 d2 out hout
    rw [hE] at hE2
    obtain rfl := Option.some.inj hE2
    exact ⟨hpp, fun k vv hk hnl =>
      postProcessEntries_preserve k E out hpp vv hk hnl⟩

/-- **C1** counterexample to losslessness: merging an accumulated message
whose `content` is a one-item list (the item lacking a `"type"` key) with
an *empty* delta loses the item — the post-processing loop of
`merge_delta_message` drops every list item without a `"type"` key, so the
result is not the lossless merge of the deltas. -/
theorem merge_delta_message_C1_counterexample :
    mergeDeltaMessage
        (some [("content", JVal.list [JVal.obj [("text", JVal.str "a")]])])
        (some []) =
      some (some [("content", JVal.list [])]) ∧
    JVal.list [] ≠ JVal.list [JVal.obj [("text", JVal.str "a")]] := by
  exact ⟨rfl, by simp⟩

/-- **C1** witness: the per-key merge rules at a concrete input — merging
`{content: "a", role: "assistant"}` with the delta `{content: "b"}`
concatenates the content to `"ab"`. -/
theorem merge_delta_message_C1_witness :
    objLookup "content"
        [("content", JVal.str "ab"), ("role", JVal.str "assistant")] =
      some (JVal.str "ab") := by
  have h := merge_delta_message_C1
    [("content", JVal.str "a"), ("role", JVal.str "assistant")]
    [("content", JVal.str "b")]
    [("content", JVal.str "ab"), ("role", JVal.str "assistant")] 3
    (by rfl) (by decide)
  exact h.1 "content" "a" "b" (by decide) (by decide) (by decide) (by decide)
    (by decide) rfl rfl (by decide)
